import Mathlib

/-!
# Verification of the `writerx` coalescing atomic file writer

Shallow embedding of `src/index.ts`: a single-file atomic writer that
writes content to a temporary file and renames it over the target,
coalescing write requests that arrive while a write is in flight.

The embedding models the writer as a small-step state machine.  One step is
one atomic segment of JavaScript execution (async function bodies run
without interleaving between `await` points).  The two suspension points of
a generation are the `writeFile` call and the `rename` call; an external
`write()` call may be issued at any step boundary.  Promise settlement is
modelled by an explicit settlement map keyed by promise id; settlement is
guarded (a JavaScript promise settles at most once).

The file first embeds the compact `Writer` class (the first class in
`index.ts`), then the documented variant (the second class in the same
file), and proves the claims about them.
-/

namespace Writerx

/-- A thrown JavaScript value.  `isError` mirrors `err instanceof Error`,
which the `catch` blocks of both variants test before invoking the reject
callback of the coalesced waiters. -/
structure ErrVal where
  id : Nat
  isError : Bool
deriving DecidableEq

/-- Outcome of one storage primitive call (`writeFile` or `rename`):
success, or rejection with a thrown value. -/
inductive IOOutcome
  | ok
  | fail (e : ErrVal)
deriving DecidableEq

/-- Settlement of a promise: resolved, or rejected with a thrown value. -/
inductive POutcome
  | resolved
  | rejected (e : ErrVal)
deriving DecidableEq

/-- Suspension point of the generation currently performing storage calls:
inside `await writeFile(tmp, content)` or inside `await rename(tmp, target)`. -/
inductive Phase
  | wfile
  | renm
deriving DecidableEq

/-- The innermost in-flight invocation of the write sequence (`#flush` in
the compact variant, the `!this.#active` branch of `write()` in the
documented one).  `prom` is the async function's own promise, `content`
the payload being written, `callIdx` the index (ghost history) of the
`write()` call whose payload this generation carries, `phase` the
suspension point it is parked at. -/
structure Running where
  prom : Nat
  content : String
  callIdx : Nat
  phase : Phase
deriving DecidableEq

/-- A write-sequence invocation suspended in its `finally` block on
`await this.write(next)`, waiting for the nested generation to finish.
`own` is its own try/catch outcome: `none` if the try block succeeded,
`some e` if it caught (and will re-throw) `e`. -/
structure Frame where
  prom : Nat
  content : String
  callIdx : Nat
  own : Option ErrVal
deriving DecidableEq

/-- Ghost history: one external `write()` call — the promise id handed to
the caller, the payload, and the call's position in arrival order. -/
structure CallRec where
  prom : Nat
  content : String
  idx : Nat
deriving DecidableEq

/-- Ghost history: one started generation — its payload, the index of the
call that supplied the payload, and how many calls had arrived when it
started. -/
structure GenRec where
  content : String
  callIdx : Nat
  callsAtStart : Nat
deriving DecidableEq

/-- Ghost history: one successful commit (rename of the temp file onto the
target) — the committed content and the supplying call's index. -/
structure CommitRec where
  content : String
  callIdx : Nat
deriving DecidableEq

/-- Ghost history: one failed generation — the supplying call's index and
the thrown value. -/
structure FailRec where
  callIdx : Nat
  err : ErrVal
deriving DecidableEq

/-- The global configuration: the writer's private fields, the filesystem,
the JavaScript engine state (running generation, stack of generations
suspended in their `finally`, promise settlements), and ghost history. -/
structure Conf where
  /-- `#target`: target path (immutable after construction). -/
  target : String
  /-- `#tmp`: temp path, computed once at construction. -/
  tmpName : String
  /-- `#active`. -/
  active : Bool
  /-- `#current`: promise whose `[done, fail]` callbacks the running
  generation settles (the promise is identified by its id). -/
  current : Option Nat
  /-- `#waiting`: promise whose callbacks the next (queued) write will
  settle. -/
  waiting : Option Nat
  /-- `#queued`: the shared promise returned to every coalesced caller. -/
  queued : Option Nat
  /-- `#buffer`: latest payload submitted while a write was active, not yet
  claimed by a generation; the `Nat` component is ghost history (the index
  of the call that buffered it). -/
  buffer : Option (String × Nat)
  /-- Content of the temp file, `none` when absent. -/
  tmpFile : Option String
  /-- Content of the target file, `none` when never written. -/
  targetFile : Option String
  /-- The generation currently suspended in a storage call. -/
  run : Option Running
  /-- Generations suspended in their `finally` on the nested write,
  innermost first. -/
  stack : List Frame
  /-- Promise settlements (a promise settles at most once). -/
  settle : List (Nat × POutcome)
  /-- Next fresh promise id. -/
  nextId : Nat
  /-- Ghost: all external `write()` calls, in arrival order. -/
  calls : List CallRec
  /-- Ghost: all started generations, in start order. -/
  started : List GenRec
  /-- Ghost: all commits, in commit order. -/
  committed : List CommitRec
  /-- Ghost: all generation failures, in order. -/
  failures : List FailRec
deriving DecidableEq

/-- An event: an external `write(c)` call, or completion (success or
rejection) of the storage call the running generation is suspended on.
`disk` events with no generation in flight are stutters. -/
inductive Ev
  | call (c : String)
  | disk (o : IOOutcome)
deriving DecidableEq

/-- Look up the settlement of promise `p`. -/
def slookup (m : List (Nat × POutcome)) (p : Nat) : Option POutcome :=
  match m with
  | [] => none
  | (q, o) :: rest => if p = q then some o else slookup rest p

/-- Settle promise `p` with outcome `o`; a no-op if `p` is already
settled (JavaScript promises settle at most once). -/
def settleP (m : List (Nat × POutcome)) (p : Nat) (o : POutcome) :
    List (Nat × POutcome) :=
  match slookup m p with
  | some _ => m
  | none => (p, o) :: m

/-- Lift a storage outcome to the settlement of the async function's own
promise: success resolves it, a (re-)thrown value rejects it. -/
def pOut : IOOutcome → POutcome
  | IOOutcome.ok => POutcome.resolved
  | IOOutcome.fail e => POutcome.rejected e

/-- `try/finally` semantics of a frame suspended on `await this.write(next)`:
if the nested write rejected, the `finally` re-raises that rejection,
replacing the frame's own outcome; otherwise the frame completes with its
own outcome (re-throwing its caught error, if any). -/
def frameOutcome (f : Frame) (o : IOOutcome) : IOOutcome :=
  match o with
  | IOOutcome.fail e => IOOutcome.fail e
  | IOOutcome.ok =>
      match f.own with
      | some e => IOOutcome.fail e
      | none => IOOutcome.ok

/-- Unwind the stack of generations suspended in their `finally` blocks
once the innermost write sequence has completed with outcome `o`: each
frame's promise settles with its `frameOutcome`, and that outcome
propagates outward. -/
def unwind (fs : List Frame) (o : IOOutcome) (m : List (Nat × POutcome)) :
    List (Nat × POutcome) :=
  match fs with
  | [] => m
  | f :: rest =>
      unwind rest (frameOutcome f o) (settleP m f.prom (pOut (frameOutcome f o)))

/-- The promise id an external `write()` call receives in configuration
`s`: the shared queued promise if one exists while a write is active, and
a fresh promise otherwise. -/
def retVal (s : Conf) : Nat :=
  if s.active then
    match s.queued with
    | some q => q
    | none => s.nextId
  else s.nextId

/-- One external `write(content)` call (compact variant):
`return this.#active ? this.#defer(content) : this.#flush(content)`.
`#defer` stores the payload into `#buffer` (unconditionally overwriting)
and creates the shared queued promise if absent; `#flush` marks the writer
active and issues `writeFile(tmp, content)`. -/
def callStep (s : Conf) (c : String) : Conf :=
  let k := s.calls.length
  if s.active then
    match s.queued with
    | some q =>
        { s with buffer := some (c, k),
                 calls := s.calls ++ [⟨q, c, k⟩] }
    | none =>
        { s with buffer := some (c, k),
                 queued := some s.nextId,
                 waiting := some s.nextId,
                 nextId := s.nextId + 1,
                 calls := s.calls ++ [⟨s.nextId, c, k⟩] }
  else
    { s with active := true,
             run := some ⟨s.nextId, c, k, Phase.wfile⟩,
             nextId := s.nextId + 1,
             calls := s.calls ++ [⟨s.nextId, c, k⟩],
             started := s.started ++ [⟨c, k, k + 1⟩] }

/-- The write sequence's own outcome: success of its try block, or the
caught error it re-throws. -/
def ownOut : Option ErrVal → IOOutcome
  | none => IOOutcome.ok
  | some e => IOOutcome.fail e

/-- Completion of a write sequence whose `finally` found no buffered
payload: the async function returns (or re-throws), settling its own
promise, and the suspended outer generations unwind. -/
def completeFlush (s : Conf) (r : Running) (ownErr : Option ErrVal) : Conf :=
  { s with run := none, stack := [],
           settle := unwind s.stack (ownOut ownErr)
             (settleP s.settle r.prom (pOut (ownOut ownErr))) }

/-- The `finally` found a buffered payload: it claims it
(`this.#buffer = null`) and awaits `this.write(next)`, which (the writer
being no longer active) starts a new generation; the finishing generation
is pushed as a suspended frame. -/
def startNext (s : Conf) (r : Running) (ownErr : Option ErrVal)
    (b : String) (j : Nat) : Conf :=
  { s with buffer := none, active := true,
           stack := ⟨r.prom, r.content, r.callIdx, ownErr⟩ :: s.stack,
           run := some ⟨s.nextId, b, j, Phase.wfile⟩,
           nextId := s.nextId + 1,
           started := s.started ++ [⟨b, j, s.calls.length⟩] }

/-- The `finally` block of `#flush` (compact variant):
`this.#active = false; this.#current = this.#waiting;
this.#waiting = this.#queued = null;` then, if a payload is buffered
(`this.#buffer !== null`), claim it and await `this.write(next)`. -/
def finallyStep (s : Conf) (r : Running) (ownErr : Option ErrVal) : Conf :=
  let s' := { s with active := false, current := s.waiting,
                     waiting := none, queued := none }
  match s'.buffer with
  | some (b, j) => startNext s' r ownErr b j
  | none => completeFlush s' r ownErr

/-- Completion of the storage call the running generation is suspended on
(compact variant).  `writeFile` success fills the temp file and moves to
the rename; `rename` success moves the temp file onto the target and
resolves `#current`; failure of either records the error, rejects
`#current` when the thrown value is an `Error` instance, and re-throws;
in every case the `finally` block runs. -/
def diskStep (s : Conf) (o : IOOutcome) : Conf :=
  match s.run with
  | none => s
  | some r =>
      match r.phase, o with
      | Phase.wfile, IOOutcome.ok =>
          { s with tmpFile := some r.content,
                   run := some { r with phase := Phase.renm } }
      | Phase.renm, IOOutcome.ok =>
          let s1 := { s with targetFile := s.tmpFile, tmpFile := none,
                             committed := s.committed ++ [CommitRec.mk r.content r.callIdx] }
          let s2 := match s1.current with
                    | some p => { s1 with settle := settleP s1.settle p POutcome.resolved }
                    | none => s1
          finallyStep s2 r none
      | _, IOOutcome.fail e =>
          let s1 := { s with failures := s.failures ++ [FailRec.mk r.callIdx e] }
          let s2 := match s1.current with
                    | some p =>
                        if e.isError then
                          { s1 with settle := settleP s1.settle p (POutcome.rejected e) }
                        else s1
                    | none => s1
          finallyStep s2 r (some e)

/-- One step of the compact variant. -/
def step (s : Conf) : Ev → Conf
  | Ev.call c => callStep s c
  | Ev.disk o => diskStep s o

/-- The path separator test used by the `node:path` posix helpers. -/
def isSlash (c : Char) : Bool := c = '/'

/-- Node `path.posix.basename` restricted to forward-slash paths: strip
trailing slashes, then take the last component. -/
def basename (p : String) : String :=
  String.mk (((p.data.reverse.dropWhile isSlash).takeWhile
    (fun c => !isSlash c)).reverse)

/-- Node `path.posix.dirname` restricted to forward-slash paths: strip
trailing slashes, drop the last component, keep the preceding prefix (or
`"."` when there is none, `"/"` at the root). -/
def dirname (p : String) : String :=
  let rev := p.data.reverse.dropWhile isSlash
  match rev.dropWhile (fun c => !isSlash c) with
  | [] => if p.data.headD ' ' = '/' then "/" else "."
  | _ :: ds => if ds.isEmpty then "/" else String.mk ds.reverse

/-- Split a character list at every `'/'`; the separators themselves are
dropped, so a leading, trailing or doubled slash shows up as an empty
segment.  `splitSlash "a//b".data = [['a'], [], ['b']]`. -/
def splitSlash : List Char → List (List Char)
  | [] => [[]]
  | c :: cs =>
      if c = '/' then [] :: splitSlash cs
      else
        match splitSlash cs with
        | [] => [[c]]
        | s :: ss => (c :: s) :: ss

/-- One segment of node's `normalizeString` resolution, on a stack of
already-emitted segments (innermost first): empty and `"."` segments are
dropped, `".."` pops the previous real segment, escapes upward only in
relative paths (`allowAbove`), and is dropped at the root of an absolute
path; any other segment is emitted. -/
def normStep (allowAbove : Bool) (acc : List (List Char)) (seg : List Char) :
    List (List Char) :=
  if seg = [] ∨ seg = ['.'] then acc
  else if seg = ['.', '.'] then
    match acc with
    | [] => if allowAbove then [seg] else []
    | top :: rest =>
        if top = ['.', '.'] then (if allowAbove then seg :: acc else acc)
        else rest
  else seg :: acc

/-- Node's `normalizeString`: resolve `.` and `..` and drop empty
segments, left to right. -/
def normSegs (allowAbove : Bool) (segs : List (List Char)) : List (List Char) :=
  (segs.foldl (normStep allowAbove) []).reverse

/-- Re-join segments with single slashes. -/
def joinSegs : List (List Char) → List Char
  | [] => []
  | [s] => s
  | s :: ss => s ++ '/' :: joinSegs ss

/-- Node `path.posix.normalize`: resolve `.`/`..` segments and collapse
repeated slashes, preserving a root slash and a trailing slash. -/
def normalize (p : String) : String :=
  if p = "" then "."
  else
    let isAbs : Bool := p.data.head? = some '/'
    let trailing : Bool := p.data.getLast? = some '/'
    let segs := normSegs (!isAbs) (splitSlash p.data)
    if segs = [] then
      if isAbs then "/" else if trailing then "./" else "."
    else
      let body := if trailing then joinSegs segs ++ ['/'] else joinSegs segs
      if isAbs then String.mk ('/' :: body) else String.mk body

/-- Node `path.posix.join` on two parts: empty parts are skipped, the
rest are concatenated with `'/'` and the result is normalized. -/
def join (a b : String) : String :=
  if a = "" ∧ b = "" then "."
  else if a = "" then normalize b
  else if b = "" then normalize a
  else normalize (a ++ "/" ++ b)

/-- The `temp` helper of `index.ts`:
`join(dirname(path), "." + basename(path) + ".tmp")`. -/
def temp (file : String) : String :=
  join (dirname file) ("." ++ basename file ++ ".tmp")

/-- The constructor: `this.#target = file; this.#tmp = temp(file)`; all
other fields start empty/idle. -/
def mkConf (path : String) : Conf :=
  { target := path, tmpName := temp path, active := false,
    current := none, waiting := none, queued := none, buffer := none,
    tmpFile := none, targetFile := none, run := none, stack := [],
    settle := [], nextId := 0, calls := [], started := [],
    committed := [], failures := [] }

/-- Run a sequence of events from a configuration (compact variant). -/
def exec (s : Conf) : List Ev → Conf
  | [] => s
  | e :: es => exec (step s e) es

/-- A configuration is reachable if some event sequence produces it from a
freshly constructed writer. -/
def Reaches (s : Conf) : Prop :=
  ∃ path evs, s = exec (mkConf path) evs

/-!
## The documented variant

The second `Writer` class in `index.ts` inlines `#defer`/`#flush` into
`write()`.  Its enqueue path and its try/catch are textually equivalent to
the compact variant's; its `finally` block differs: it reads
`const next = this.#buffer` and tests `if (next)` — a *truthiness* test,
false for the empty string — and clears the buffer only inside that
branch. -/

/-- The `finally` block of the documented variant's `write()`:
like `finallyStep`, but the buffered payload is claimed only when truthy
(`if (next)`), so a buffered empty string is neither written nor cleared. -/
def finallyStepD (s : Conf) (r : Running) (ownErr : Option ErrVal) : Conf :=
  let s' := { s with active := false, current := s.waiting,
                     waiting := none, queued := none }
  match s'.buffer with
  | some (b, j) =>
      if b = "" then completeFlush s' r ownErr
      else startNext s' r ownErr b j
  | none => completeFlush s' r ownErr

/-- Completion of a storage call in the documented variant; identical to
`diskStep` except for the `finally` block. -/
def diskStepD (s : Conf) (o : IOOutcome) : Conf :=
  match s.run with
  | none => s
  | some r =>
      match r.phase, o with
      | Phase.wfile, IOOutcome.ok =>
          { s with tmpFile := some r.content,
                   run := some { r with phase := Phase.renm } }
      | Phase.renm, IOOutcome.ok =>
          let s1 := { s with targetFile := s.tmpFile, tmpFile := none,
                             committed := s.committed ++ [CommitRec.mk r.content r.callIdx] }
          let s2 := match s1.current with
                    | some p => { s1 with settle := settleP s1.settle p POutcome.resolved }
                    | none => s1
          finallyStepD s2 r none
      | _, IOOutcome.fail e =>
          let s1 := { s with failures := s.failures ++ [FailRec.mk r.callIdx e] }
          let s2 := match s1.current with
                    | some p =>
                        if e.isError then
                          { s1 with settle := settleP s1.settle p (POutcome.rejected e) }
                        else s1
                    | none => s1
          finallyStepD s2 r (some e)

/-- One step of the documented variant.  Its `write()` enqueue path
(`this.#buffer = content; if (!this.#queued) ...; return this.#queued`)
and its active-write start are textually the same as the compact
variant's, so the call step is shared. -/
def stepD (s : Conf) : Ev → Conf
  | Ev.call c => callStep s c
  | Ev.disk o => diskStepD s o

/-- Run a sequence of events from a configuration (documented variant). -/
def execD (s : Conf) : List Ev → Conf
  | [] => s
  | e :: es => execD (stepD s e) es

/-!
## Basic lemmas about promise settlement
-/

theorem slookup_settleP_ne (m : List (Nat × POutcome)) (p q : Nat) (o : POutcome)
    (h : q ≠ p) : slookup (settleP m p o) q = slookup m q := by
  unfold settleP
  cases hm : slookup m p with
  | some x => rfl
  | none => simp [slookup, h]

theorem slookup_settleP_none (m : List (Nat × POutcome)) (p : Nat) (o : POutcome)
    (h : slookup m p = none) : slookup (settleP m p o) p = some o := by
  unfold settleP
  rw [h]
  simp [slookup]

theorem settleP_already (m : List (Nat × POutcome)) (p : Nat) (o : POutcome) (x : POutcome)
    (h : slookup m p = some x) : settleP m p o = m := by
  unfold settleP
  rw [h]

theorem slookup_unwind_notmem (fs : List Frame) (o : IOOutcome)
    (m : List (Nat × POutcome)) (p : Nat) (h : ∀ f ∈ fs, p ≠ f.prom) :
    slookup (unwind fs o m) p = slookup m p := by
  induction fs generalizing o m with
  | nil => rfl
  | cons f rest ih =>
      rw [unwind, ih _ _ (fun g hg => h g (List.mem_cons_of_mem f hg)),
        slookup_settleP_ne _ _ _ _ (h f (List.mem_cons_self f rest))]

/-!
## History predicates

`SettleOK` relates the settlement of a caller's promise to the ghost
history: a resolution must be justified by a commit of content no older
than the caller's, a rejection by a failure of a generation no older than
the caller's. -/

/-- All calls holding promise `p` arrived no later than call index `n`. -/
def holderB (calls : List CallRec) (p n : Nat) : Prop :=
  ∀ cr ∈ calls, cr.prom = p → cr.idx ≤ n

/-- Justification of one call's settlement by the history. -/
def SettleOK (cr : CallRec) (so : Option POutcome)
    (cmt : List CommitRec) (fl : List FailRec) : Prop :=
  match so with
  | some POutcome.resolved => ∃ d ∈ cmt, cr.idx ≤ d.callIdx
  | some (POutcome.rejected e) => ∃ j, FailRec.mk j e ∈ fl ∧ cr.idx ≤ j
  | none => True

/-- Every recorded call's settlement is justified by the history. -/
def CallsOK (calls : List CallRec) (m : List (Nat × POutcome))
    (cmt : List CommitRec) (fl : List FailRec) : Prop :=
  ∀ cr ∈ calls, SettleOK cr (slookup m cr.prom) cmt fl

theorem SettleOK.mono {cr : CallRec} {so : Option POutcome}
    {cmt cmt' : List CommitRec} {fl fl' : List FailRec}
    (h : SettleOK cr so cmt fl) (hc : ∀ d ∈ cmt, d ∈ cmt') (hf : ∀ x ∈ fl, x ∈ fl') :
    SettleOK cr so cmt' fl' := by
  unfold SettleOK at h ⊢
  match so with
  | none => trivial
  | some POutcome.resolved =>
      obtain ⟨d, hd, hle⟩ := h
      exact ⟨d, hc d hd, hle⟩
  | some (POutcome.rejected e) =>
      obtain ⟨j, hj, hle⟩ := h
      exact ⟨j, hf _ hj, hle⟩

/-- Unwinding the `finally` frames keeps every caller's settlement
justified: a frame's promise settles resolved only when its own try block
succeeded (hence its commit is recorded), and rejected only with an error
recorded for a generation at least as recent as the frame's. -/
theorem unwind_calls_ok (calls : List CallRec) (cmt : List CommitRec)
    (fl : List FailRec) :
    ∀ (fs : List Frame) (o : IOOutcome) (m : List (Nat × POutcome)),
    (∀ f ∈ fs, (∀ cr ∈ calls, cr.prom = f.prom → cr.idx ≤ f.callIdx) ∧
               (f.own = none → CommitRec.mk f.content f.callIdx ∈ cmt) ∧
               (∀ e, f.own = some e → FailRec.mk f.callIdx e ∈ fl)) →
    (∀ e, o = IOOutcome.fail e → ∃ j, FailRec.mk j e ∈ fl ∧ ∀ f ∈ fs, f.callIdx ≤ j) →
    (fs.map Frame.callIdx).Pairwise (· > ·) →
    CallsOK calls m cmt fl →
    CallsOK calls (unwind fs o m) cmt fl := by
  intro fs
  induction fs with
  | nil => intro o m _ _ _ hm; exact hm
  | cons f rest ih =>
      intro o m hfacts hsrc hord hm
      rw [unwind]
      have hford : ∀ g ∈ rest, g.callIdx < f.callIdx := by
        intro g hg
        have := (List.pairwise_cons.mp hord).1
        exact this g.callIdx (List.mem_map_of_mem Frame.callIdx hg)
      refine ih (frameOutcome f o) _
        (fun g hg => hfacts g (List.mem_cons_of_mem f hg)) ?_
        (List.pairwise_cons.mp hord).2 ?_
      · -- the propagated outcome is still justified for the remaining frames
        intro e he
        unfold frameOutcome at he
        match ho : o with
        | IOOutcome.fail e' =>
            simp only at he
            obtain ⟨j, hj, hall⟩ := hsrc e' rfl
            cases he
            exact ⟨j, hj, fun g hg => hall g (List.mem_cons_of_mem f hg)⟩
        | IOOutcome.ok =>
            simp only at he
            match hown : f.own with
            | some e'' =>
                rw [hown] at he
                cases he
                refine ⟨f.callIdx, (hfacts f (List.mem_cons_self f rest)).2.2 _ hown, ?_⟩
                intro g hg
                exact Nat.le_of_lt (hford g hg)
            | none => rw [hown] at he; cases he
      · -- settling this frame's promise is justified
        intro cr hcr
        by_cases hp : cr.prom = f.prom
        · cases hmf : slookup m f.prom with
          | some x =>
              rw [settleP_already _ _ _ _ hmf]
              exact hm cr hcr
          | none =>
              rw [hp, slookup_settleP_none _ _ _ hmf]
              have hb : cr.idx ≤ f.callIdx :=
                (hfacts f (List.mem_cons_self f rest)).1 cr hcr hp
              unfold SettleOK
              unfold frameOutcome
              match ho : o with
              | IOOutcome.fail e' =>
                  simp only [pOut]
                  obtain ⟨j, hj, hall⟩ := hsrc e' rfl
                  exact ⟨j, hj, Nat.le_trans hb (hall f (List.mem_cons_self f rest))⟩
              | IOOutcome.ok =>
                  match hown : f.own with
                  | some e'' =>
                      simp only [pOut]
                      exact ⟨f.callIdx, (hfacts f (List.mem_cons_self f rest)).2.2 _ hown, hb⟩
                  | none =>
                      simp only [pOut]
                      exact ⟨_, (hfacts f (List.mem_cons_self f rest)).2.1 hown, hb⟩
        · rw [slookup_settleP_ne _ _ _ _ hp]
          exact hm cr hcr

/-!
## The reachability invariant

`Inv` collects everything that holds of every reachable configuration of
the compact variant: structural consistency of the writer's slots,
freshness and distinctness of the live promises, justification of every
settlement by the ghost history, and the ordering facts that make the
coalescing monotone. -/

structure Inv (s : Conf) : Prop where
  act_run : s.active = s.run.isSome
  qw : s.waiting = s.queued
  buf_q : s.buffer = none ↔ s.queued = none
  buf_idx : ∀ b j, s.buffer = some (b, j) →
    j + 1 = s.calls.length ∧ ∃ p, CallRec.mk p b j ∈ s.calls
  idle_clean : s.run = none →
    s.stack = [] ∧ s.buffer = none ∧ s.queued = none ∧ s.current = none
  fresh_cur : ∀ p, s.current = some p → p < s.nextId
  fresh_q : ∀ q, s.queued = some q → q < s.nextId
  fresh_run : ∀ r, s.run = some r → r.prom < s.nextId
  fresh_stack : ∀ f ∈ s.stack, f.prom < s.nextId
  fresh_calls : ∀ cr ∈ s.calls, cr.prom < s.nextId
  d_cq : ∀ p q, s.current = some p → s.queued = some q → p ≠ q
  d_cr : ∀ p r, s.current = some p → s.run = some r → p ≠ r.prom
  d_cs : ∀ p f, s.current = some p → f ∈ s.stack → p ≠ f.prom
  d_qr : ∀ q r, s.queued = some q → s.run = some r → q ≠ r.prom
  d_qs : ∀ q f, s.queued = some q → f ∈ s.stack → q ≠ f.prom
  d_rs : ∀ r f, s.run = some r → f ∈ s.stack → r.prom ≠ f.prom
  d_ss : (s.stack.map Frame.prom).Nodup
  uns_cur : ∀ p, s.current = some p → slookup s.settle p = none
  uns_q : ∀ q, s.queued = some q → slookup s.settle q = none
  uns_run : ∀ r, s.run = some r → slookup s.settle r.prom = none
  uns_stack : ∀ f ∈ s.stack, slookup s.settle f.prom = none
  settled_lt : ∀ p, s.nextId ≤ p → slookup s.settle p = none
  calls_ok : CallsOK s.calls s.settle s.committed s.failures
  holder_q : ∀ q b j, s.queued = some q → s.buffer = some (b, j) → holderB s.calls q j
  holder_cur : ∀ p r, s.current = some p → s.run = some r → holderB s.calls p r.callIdx
  holder_run : ∀ r, s.run = some r → holderB s.calls r.prom r.callIdx
  holder_stack : ∀ f ∈ s.stack, holderB s.calls f.prom f.callIdx
  stack_cmt : ∀ f ∈ s.stack, f.own = none → CommitRec.mk f.content f.callIdx ∈ s.committed
  stack_fail : ∀ f ∈ s.stack, ∀ e, f.own = some e → FailRec.mk f.callIdx e ∈ s.failures
  order_run : ∀ r, s.run = some r → ∀ f ∈ s.stack, f.callIdx < r.callIdx
  order_stack : (s.stack.map Frame.callIdx).Pairwise (· > ·)
  cmt_inc : (s.committed.map CommitRec.callIdx).Pairwise (· < ·)
  cmt_lt_run : ∀ r, s.run = some r → ∀ d ∈ s.committed, d.callIdx < r.callIdx
  cmt_lt_len : ∀ d ∈ s.committed, d.callIdx < s.calls.length
  buf_gt_run : ∀ r b j, s.run = some r → s.buffer = some (b, j) → r.callIdx < j
  run_lt_len : ∀ r, s.run = some r → r.callIdx < s.calls.length
  started_ok : ∀ g ∈ s.started,
    g.callIdx + 1 = g.callsAtStart ∧ ∃ p, CallRec.mk p g.content g.callIdx ∈ s.calls
  cmt_src : ∀ d ∈ s.committed, ∃ p, CallRec.mk p d.content d.callIdx ∈ s.calls
  run_src : ∀ r, s.run = some r → ∃ p, CallRec.mk p r.content r.callIdx ∈ s.calls

/-- What holds just before the `finally` block of a finishing write
sequence runs: the configuration `s` already carries the commit or
failure record of the finishing generation `r` (whose own outcome is
`ownErr`), `r`'s waiters — if any — have just been settled, and all the
structural invariants not involving the old `#current` still hold. -/
structure PreFin (s : Conf) (r : Running) (ownErr : Option ErrVal) : Prop where
  qw : s.waiting = s.queued
  buf_q : s.buffer = none ↔ s.queued = none
  buf_idx : ∀ b j, s.buffer = some (b, j) →
    j + 1 = s.calls.length ∧ ∃ p, CallRec.mk p b j ∈ s.calls
  fresh_q : ∀ q, s.queued = some q → q < s.nextId
  fresh_run : r.prom < s.nextId
  fresh_stack : ∀ f ∈ s.stack, f.prom < s.nextId
  fresh_calls : ∀ cr ∈ s.calls, cr.prom < s.nextId
  d_qr : ∀ q, s.queued = some q → q ≠ r.prom
  d_qs : ∀ q f, s.queued = some q → f ∈ s.stack → q ≠ f.prom
  d_rs : ∀ f ∈ s.stack, r.prom ≠ f.prom
  d_ss : (s.stack.map Frame.prom).Nodup
  uns_q : ∀ q, s.queued = some q → slookup s.settle q = none
  uns_run : slookup s.settle r.prom = none
  uns_stack : ∀ f ∈ s.stack, slookup s.settle f.prom = none
  settled_lt : ∀ p, s.nextId ≤ p → slookup s.settle p = none
  calls_ok : CallsOK s.calls s.settle s.committed s.failures
  holder_q : ∀ q b j, s.queued = some q → s.buffer = some (b, j) → holderB s.calls q j
  holder_run : holderB s.calls r.prom r.callIdx
  holder_stack : ∀ f ∈ s.stack, holderB s.calls f.prom f.callIdx
  stack_cmt : ∀ f ∈ s.stack, f.own = none → CommitRec.mk f.content f.callIdx ∈ s.committed
  stack_fail : ∀ f ∈ s.stack, ∀ e, f.own = some e → FailRec.mk f.callIdx e ∈ s.failures
  order_run : ∀ f ∈ s.stack, f.callIdx < r.callIdx
  order_stack : (s.stack.map Frame.callIdx).Pairwise (· > ·)
  cmt_inc : (s.committed.map CommitRec.callIdx).Pairwise (· < ·)
  cmt_le_run : ∀ d ∈ s.committed, d.callIdx ≤ r.callIdx
  cmt_lt_len : ∀ d ∈ s.committed, d.callIdx < s.calls.length
  buf_gt_run : ∀ b j, s.buffer = some (b, j) → r.callIdx < j
  run_lt_len : r.callIdx < s.calls.length
  started_ok : ∀ g ∈ s.started,
    g.callIdx + 1 = g.callsAtStart ∧ ∃ p, CallRec.mk p g.content g.callIdx ∈ s.calls
  cmt_src : ∀ d ∈ s.committed, ∃ p, CallRec.mk p d.content d.callIdx ∈ s.calls
  run_src : ∃ p, CallRec.mk p r.content r.callIdx ∈ s.calls
  own_cmt : ownErr = none → CommitRec.mk r.content r.callIdx ∈ s.committed
  own_fail : ∀ e, ownErr = some e → FailRec.mk r.callIdx e ∈ s.failures

theorem inv_startNext {s : Conf} {r : Running} {ownErr : Option ErrVal}
    {b : String} {j : Nat}
    (pf : PreFin s r ownErr) (hb : s.buffer = some (b, j)) :
    Inv (startNext
      { s with active := false, current := s.waiting, waiting := none, queued := none }
      r ownErr b j) := by
  obtain ⟨hlen, pb, hpb⟩ : j + 1 = s.calls.length ∧ ∃ p, CallRec.mk p b j ∈ s.calls :=
    pf.buf_idx b j hb
  refine
    { act_run := rfl
      qw := rfl
      buf_q := by simp [startNext]
      buf_idx := by intro b' j' h; simp [startNext] at h
      idle_clean := by intro h; simp [startNext] at h
      fresh_cur := ?_
      fresh_q := by intro q h; simp [startNext] at h
      fresh_run := by intro r' h; simp only [startNext] at h; cases h; exact Nat.lt_succ_of_le (Nat.le_refl _)
      fresh_stack := ?_
      fresh_calls := fun cr h => Nat.lt_succ_of_lt (pf.fresh_calls cr h)
      d_cq := by intro p q _ h; simp [startNext] at h
      d_cr := ?_
      d_cs := ?_
      d_qr := by intro q r' h; simp [startNext] at h
      d_qs := by intro q f h; simp [startNext] at h
      d_rs := ?_
      d_ss := ?_
      uns_cur := ?_
      uns_q := by intro q h; simp [startNext] at h
      uns_run := ?_
      uns_stack := ?_
      settled_lt := fun p hp => pf.settled_lt p (Nat.le_of_succ_le hp)
      calls_ok := pf.calls_ok
      holder_q := by intro q b' j' h; simp [startNext] at h
      holder_cur := ?_
      holder_run := ?_
      holder_stack := ?_
      stack_cmt := ?_
      stack_fail := ?_
      order_run := ?_
      order_stack := ?_
      cmt_inc := pf.cmt_inc
      cmt_lt_run := ?_
      cmt_lt_len := pf.cmt_lt_len
      buf_gt_run := by intro r' b' j' _ h; simp [startNext] at h
      run_lt_len := ?_
      started_ok := ?_
      cmt_src := pf.cmt_src
      run_src := ?_ }
  · -- fresh_cur: the promoted waiting promise is an old queued id
    intro p hp
    simp only [startNext] at hp
    rw [pf.qw] at hp
    exact Nat.lt_succ_of_lt (pf.fresh_q p hp)
  · -- fresh_stack
    intro f hf
    simp only [startNext, List.mem_cons] at hf
    rcases hf with h | h
    · cases h; exact Nat.lt_succ_of_lt pf.fresh_run
    · exact Nat.lt_succ_of_lt (pf.fresh_stack f h)
  · -- d_cr: promoted current vs the fresh generation promise
    intro p r' hp hr'
    simp only [startNext] at hp hr'
    rw [pf.qw] at hp
    cases hr'
    exact Nat.ne_of_lt (pf.fresh_q p hp)
  · -- d_cs
    intro p f hp hf
    simp only [startNext, List.mem_cons] at hp hf
    rw [pf.qw] at hp
    rcases hf with h | h
    · cases h; exact pf.d_qr p hp
    · exact pf.d_qs p f hp h
  · -- d_rs: fresh promise vs pushed frames
    intro r' f hr' hf
    simp only [startNext, List.mem_cons] at hr' hf
    cases hr'
    rcases hf with h | h
    · cases h; exact Nat.ne_of_gt pf.fresh_run
    · exact Nat.ne_of_gt (pf.fresh_stack f h)
  · -- d_ss
    simp only [startNext, List.map_cons, List.nodup_cons]
    exact ⟨fun hmem => by
        obtain ⟨f, hf, hfp⟩ := List.mem_map.mp hmem
        exact pf.d_rs f hf hfp.symm,
      pf.d_ss⟩
  · -- uns_cur
    intro p hp
    simp only [startNext] at hp
    rw [pf.qw] at hp
    exact pf.uns_q p hp
  · -- uns_run
    intro r' hr'
    simp only [startNext] at hr'
    cases hr'
    exact pf.settled_lt _ (Nat.le_refl _)
  · -- uns_stack
    intro f hf
    simp only [startNext, List.mem_cons] at hf
    rcases hf with h | h
    · cases h; exact pf.uns_run
    · exact pf.uns_stack f h
  · -- holder_cur: the promoted promise's holders all arrived before `j`
    intro p r' hp hr'
    simp only [startNext] at hp hr'
    rw [pf.qw] at hp
    cases hr'
    exact pf.holder_q p b j hp hb
  · -- holder_run: the fresh generation promise has no holders
    intro r' hr'
    simp only [startNext] at hr'
    cases hr'
    intro cr hcr hpcr
    exact absurd hpcr (Nat.ne_of_lt (pf.fresh_calls cr hcr))
  · -- holder_stack
    intro f hf
    simp only [startNext, List.mem_cons] at hf
    rcases hf with h | h
    · cases h; exact pf.holder_run
    · exact pf.holder_stack f h
  · -- stack_cmt
    intro f hf hown
    simp only [startNext, List.mem_cons] at hf
    rcases hf with h | h
    · cases h; exact pf.own_cmt hown
    · exact pf.stack_cmt f h hown
  · -- stack_fail
    intro f hf e hown
    simp only [startNext, List.mem_cons] at hf
    rcases hf with h | h
    · cases h; exact pf.own_fail e hown
    · exact pf.stack_fail f h e hown
  · -- order_run
    intro r' hr' f hf
    simp only [startNext, List.mem_cons] at hr' hf
    cases hr'
    rcases hf with h | h
    · cases h; exact pf.buf_gt_run b j hb
    · exact Nat.lt_trans (pf.order_run f h) (pf.buf_gt_run b j hb)
  · -- order_stack
    simp only [startNext, List.map_cons]
    refine List.pairwise_cons.mpr ⟨?_, pf.order_stack⟩
    intro x hx
    obtain ⟨f, hf, hfx⟩ := List.mem_map.mp hx
    cases hfx
    exact pf.order_run f hf
  · -- cmt_lt_run
    intro r' hr' d hd
    simp only [startNext] at hr'
    cases hr'
    exact Nat.lt_of_le_of_lt (pf.cmt_le_run d hd) (pf.buf_gt_run b j hb)
  · -- run_lt_len
    intro r' hr'
    simp only [startNext] at hr'
    cases hr'
    exact hlen ▸ Nat.lt_succ_of_le (Nat.le_refl _)
  · -- started_ok
    intro g hg
    simp only [startNext, List.mem_append, List.mem_singleton] at hg
    rcases hg with h | h
    · exact pf.started_ok g h
    · cases h; exact ⟨hlen, pb, hpb⟩
  · -- run_src
    intro r' hr'
    simp only [startNext] at hr'
    cases hr'
    exact ⟨pb, hpb⟩

theorem inv_completeFlush {s : Conf} {r : Running} {ownErr : Option ErrVal}
    (pf : PreFin s r ownErr) (hb : s.buffer = none) :
    Inv (completeFlush
      { s with active := false, current := s.waiting, waiting := none, queued := none }
      r ownErr) := by
  have hq : s.queued = none := pf.buf_q.mp hb
  have hw : s.waiting = none := pf.qw.trans hq
  have hsettle : ∀ p, (∀ f ∈ s.stack, p ≠ f.prom) → p ≠ r.prom →
      slookup (unwind s.stack (ownOut ownErr)
        (settleP s.settle r.prom (pOut (ownOut ownErr)))) p = slookup s.settle p := by
    intro p hstack hrp
    rw [slookup_unwind_notmem _ _ _ _ hstack, slookup_settleP_ne _ _ _ _ hrp]
  refine
    { act_run := rfl
      qw := rfl
      buf_q := by simp [completeFlush, hb]
      buf_idx := by intro b' j' h; simp only [completeFlush] at h; rw [hb] at h; cases h
      idle_clean := by
        intro _
        refine ⟨rfl, by simpa [completeFlush] using hb, rfl, ?_⟩
        simp only [completeFlush]
        exact hw
      fresh_cur := by
        intro p hp
        simp only [completeFlush] at hp
        rw [hw] at hp
        cases hp
      fresh_q := by intro q h; simp [completeFlush] at h
      fresh_run := by intro r' h; simp [completeFlush] at h
      fresh_stack := by intro f hf; simp [completeFlush] at hf
      fresh_calls := pf.fresh_calls
      d_cq := by intro p q hp _; simp only [completeFlush] at hp; rw [hw] at hp; cases hp
      d_cr := by intro p r' _ h; simp [completeFlush] at h
      d_cs := by intro p f _ hf; simp [completeFlush] at hf
      d_qr := by intro q r' h; simp [completeFlush] at h
      d_qs := by intro q f h; simp [completeFlush] at h
      d_rs := by intro r' f h; simp [completeFlush] at h
      d_ss := by simp [completeFlush]
      uns_cur := by intro p hp; simp only [completeFlush] at hp; rw [hw] at hp; cases hp
      uns_q := by intro q h; simp [completeFlush] at h
      uns_run := by intro r' h; simp [completeFlush] at h
      uns_stack := by intro f hf; simp [completeFlush] at hf
      settled_lt := ?_
      calls_ok := ?_
      holder_q := by intro q b' j' h; simp [completeFlush] at h
      holder_cur := by intro p r' _ h; simp [completeFlush] at h
      holder_run := by intro r' h; simp [completeFlush] at h
      holder_stack := by intro f hf; simp [completeFlush] at hf
      stack_cmt := by intro f hf; simp [completeFlush] at hf
      stack_fail := by intro f hf; simp [completeFlush] at hf
      order_run := by intro r' h; simp [completeFlush] at h
      order_stack := by simp [completeFlush]
      cmt_inc := pf.cmt_inc
      cmt_lt_run := by intro r' h; simp [completeFlush] at h
      cmt_lt_len := pf.cmt_lt_len
      buf_gt_run := by intro r' b' j' h; simp [completeFlush] at h
      run_lt_len := by intro r' h; simp [completeFlush] at h
      started_ok := pf.started_ok
      cmt_src := pf.cmt_src
      run_src := by intro r' h; simp [completeFlush] at h }
  · -- settled_lt: fresh promises stay unsettled through the unwind
    intro p hp
    simp only [completeFlush]
    rw [hsettle p
      (fun f hf => Nat.ne_of_gt (Nat.lt_of_lt_of_le (pf.fresh_stack f hf) hp))
      (Nat.ne_of_gt (Nat.lt_of_lt_of_le pf.fresh_run hp))]
    exact pf.settled_lt p hp
  · -- calls_ok: settling the finishing sequence and unwinding stays justified
    simp only [completeFlush]
    refine unwind_calls_ok _ _ _ _ _ _
      (fun f hf => ⟨pf.holder_stack f hf, pf.stack_cmt f hf, pf.stack_fail f hf⟩)
      ?_ pf.order_stack ?_
    · intro e he
      refine ⟨r.callIdx, ?_, fun f hf => Nat.le_of_lt (pf.order_run f hf)⟩
      apply pf.own_fail
      cases hoe : ownErr with
      | none => rw [hoe] at he; cases he
      | some e' => rw [hoe] at he; cases he; rfl
    · intro cr hcr
      by_cases hp : cr.prom = r.prom
      · rw [hp, slookup_settleP_none _ _ _ pf.uns_run]
        have hbnd : cr.idx ≤ r.callIdx := pf.holder_run cr hcr hp
        cases hoe : ownErr with
        | none =>
            simp only [ownOut, pOut, SettleOK]
            exact ⟨_, pf.own_cmt hoe, hbnd⟩
        | some e =>
            simp only [ownOut, pOut, SettleOK]
            exact ⟨r.callIdx, pf.own_fail e hoe, hbnd⟩
      · rw [slookup_settleP_ne _ _ _ _ hp]
        exact pf.calls_ok cr hcr

/-- The `finally` block preserves the invariant. -/
theorem inv_finallyStep {s : Conf} {r : Running} {ownErr : Option ErrVal}
    (pf : PreFin s r ownErr) : Inv (finallyStep s r ownErr) := by
  unfold finallyStep
  cases hb : s.buffer with
  | some bj =>
      obtain ⟨b, j⟩ := bj
      simpa [hb] using inv_startNext pf hb
  | none => simpa [hb] using inv_completeFlush pf hb

theorem holderB_append_ne {calls : List CallRec} {p n : Nat} {x : CallRec}
    (h : holderB calls p n) (hx : x.prom ≠ p) : holderB (calls ++ [x]) p n := by
  intro cr hcr hp
  rcases List.mem_append.mp hcr with h' | h'
  · exact h cr h' hp
  · rw [List.mem_singleton.mp h'] at hp; exact absurd hp hx

theorem holderB_append_le {calls : List CallRec} {p n : Nat} {x : CallRec}
    (h : holderB calls p n) (hx : x.idx ≤ n) : holderB (calls ++ [x]) p n := by
  intro cr hcr hp
  rcases List.mem_append.mp hcr with h' | h'
  · exact h cr h' hp
  · rw [List.mem_singleton.mp h']; exact hx

theorem callsOK_append {calls : List CallRec} {m : List (Nat × POutcome)}
    {cmt : List CommitRec} {fl : List FailRec} {x : CallRec}
    (h : CallsOK calls m cmt fl) (hx : SettleOK x (slookup m x.prom) cmt fl) :
    CallsOK (calls ++ [x]) m cmt fl := by
  intro cr hcr
  rcases List.mem_append.mp hcr with h' | h'
  · exact h cr h'
  · rw [List.mem_singleton.mp h']; exact hx

/-- An external `write()` call preserves the invariant. -/
theorem inv_callStep {s : Conf} (inv : Inv s) (c : String) : Inv (callStep s c) := by
  by_cases hA : s.active
  · -- a write is active: `#defer`
    have hrun : ∃ r, s.run = some r := by
      have := inv.act_run
      rw [hA] at this
      cases hr : s.run with
      | none => rw [hr] at this; cases this
      | some r => exact ⟨r, rfl⟩
    obtain ⟨r, hr⟩ := hrun
    cases hq : s.queued with
    | some q =>
        simp only [callStep, if_pos hA, hq]
        obtain ⟨b0, j0, hb0⟩ : ∃ b0 j0, s.buffer = some (b0, j0) := by
          cases hb : s.buffer with
          | none =>
              rw [inv.buf_q.mp hb] at hq
              cases hq
          | some bj =>
              obtain ⟨b0, j0⟩ := bj
              exact ⟨b0, j0, rfl⟩
        obtain ⟨hj0len, _⟩ := inv.buf_idx b0 j0 hb0
        refine
          { act_run := inv.act_run
            qw := inv.qw.trans hq
            buf_q := by simp
            buf_idx := ?_
            idle_clean := by intro h; rw [hr] at h; cases h
            fresh_cur := inv.fresh_cur
            fresh_q := by intro q' h; cases h; exact inv.fresh_q q hq
            fresh_run := inv.fresh_run
            fresh_stack := inv.fresh_stack
            fresh_calls := ?_
            d_cq := by intro p q' hp h; cases h; exact inv.d_cq p q hp hq
            d_cr := inv.d_cr
            d_cs := inv.d_cs
            d_qr := by intro q' r' h hr'; cases h; exact inv.d_qr q r' hq hr'
            d_qs := by intro q' f h hf; cases h; exact inv.d_qs q f hq hf
            d_rs := inv.d_rs
            d_ss := inv.d_ss
            uns_cur := inv.uns_cur
            uns_q := by intro q' h; cases h; exact inv.uns_q q hq
            uns_run := inv.uns_run
            uns_stack := inv.uns_stack
            settled_lt := inv.settled_lt
            calls_ok := callsOK_append inv.calls_ok (by
              show SettleOK _ (slookup s.settle q) _ _
              rw [inv.uns_q q hq]
              trivial)
            holder_q := ?_
            holder_cur := ?_
            holder_run := ?_
            holder_stack := ?_
            stack_cmt := inv.stack_cmt
            stack_fail := inv.stack_fail
            order_run := inv.order_run
            order_stack := inv.order_stack
            cmt_inc := inv.cmt_inc
            cmt_lt_run := inv.cmt_lt_run
            cmt_lt_len := ?_
            buf_gt_run := ?_
            run_lt_len := ?_
            started_ok := ?_
            cmt_src := ?_
            run_src := ?_ }
        · intro b' j' h
          cases h
          refine ⟨by simp, q, List.mem_append_right _ (List.mem_singleton.mpr rfl)⟩
        · intro cr hcr
          rcases List.mem_append.mp hcr with h' | h'
          · exact inv.fresh_calls cr h'
          · rw [List.mem_singleton.mp h']; exact inv.fresh_q q hq
        · intro q' b' j' hq' hb'
          cases hq'
          cases hb'
          refine holderB_append_le ?_ (Nat.le_refl _)
          intro cr hcr hp
          exact Nat.le_of_lt (Nat.lt_of_le_of_lt
            (inv.holder_q q b0 j0 hq hb0 cr hcr hp) (by omega))
        · intro p r' hp hr'
          exact holderB_append_ne (inv.holder_cur p r' hp hr') (inv.d_cq p q hp hq).symm
        · intro r' hr'
          exact holderB_append_ne (inv.holder_run r' hr') (inv.d_qr q r' hq hr')
        · intro f hf
          exact holderB_append_ne (inv.holder_stack f hf) (inv.d_qs q f hq hf)
        · intro d hd
          exact Nat.lt_of_lt_of_le (inv.cmt_lt_len d hd) (by simp)
        · intro r' b' j' hr' hb'
          cases hb'
          exact inv.run_lt_len r' hr'
        · intro r' hr'
          exact Nat.lt_of_lt_of_le (inv.run_lt_len r' hr') (by simp)
        · intro g hg
          obtain ⟨h1, p, hp⟩ := inv.started_ok g hg
          exact ⟨h1, p, List.mem_append_left _ hp⟩
        · intro d hd
          obtain ⟨p, hp⟩ := inv.cmt_src d hd
          exact ⟨p, List.mem_append_left _ hp⟩
        · intro r' hr'
          obtain ⟨p, hp⟩ := inv.run_src r' hr'
          exact ⟨p, List.mem_append_left _ hp⟩
    | none =>
        simp only [callStep, if_pos hA, hq]
        refine
          { act_run := inv.act_run
            qw := rfl
            buf_q := by simp
            buf_idx := ?_
            idle_clean := by intro h; rw [hr] at h; cases h
            fresh_cur := fun p hp => Nat.lt_succ_of_lt (inv.fresh_cur p hp)
            fresh_q := ?_
            fresh_run := fun r' hr' => Nat.lt_succ_of_lt (inv.fresh_run r' hr')
            fresh_stack := fun f hf => Nat.lt_succ_of_lt (inv.fresh_stack f hf)
            fresh_calls := ?_
            d_cq := ?_
            d_cr := inv.d_cr
            d_cs := inv.d_cs
            d_qr := ?_
            d_qs := ?_
            d_rs := inv.d_rs
            d_ss := inv.d_ss
            uns_cur := inv.uns_cur
            uns_q := ?_
            uns_run := inv.uns_run
            uns_stack := inv.uns_stack
            settled_lt := fun p hp => inv.settled_lt p (Nat.le_of_succ_le hp)
            calls_ok := callsOK_append inv.calls_ok
              (by rw [inv.settled_lt s.nextId (Nat.le_refl _)]; trivial)
            holder_q := ?_
            holder_cur := ?_
            holder_run := ?_
            holder_stack := ?_
            stack_cmt := inv.stack_cmt
            stack_fail := inv.stack_fail
            order_run := inv.order_run
            order_stack := inv.order_stack
            cmt_inc := inv.cmt_inc
            cmt_lt_run := inv.cmt_lt_run
            cmt_lt_len := ?_
            buf_gt_run := ?_
            run_lt_len := ?_
            started_ok := ?_
            cmt_src := ?_
            run_src := ?_ }
        · intro b' j' h
          cases h
          exact ⟨by simp, s.nextId, List.mem_append_right _ (List.mem_singleton.mpr rfl)⟩
        · intro q hq'
          cases hq'
          exact Nat.lt_succ_of_le (Nat.le_refl _)
        · intro cr hcr
          rcases List.mem_append.mp hcr with h' | h'
          · exact Nat.lt_succ_of_lt (inv.fresh_calls cr h')
          · rw [List.mem_singleton.mp h']; exact Nat.lt_succ_of_le (Nat.le_refl _)
        · intro p q hp hq'
          cases hq'
          exact Nat.ne_of_lt (inv.fresh_cur p hp)
        · intro q r' hq' hr'
          cases hq'
          exact Nat.ne_of_gt (inv.fresh_run r' hr')
        · intro q f hq' hf
          cases hq'
          exact Nat.ne_of_gt (inv.fresh_stack f hf)
        · intro q hq'
          cases hq'
          exact inv.settled_lt s.nextId (Nat.le_refl _)
        · intro q' b' j' hq' hb'
          cases hq'
          cases hb'
          refine holderB_append_le ?_ (Nat.le_refl _)
          intro cr hcr hp
          exact absurd hp (Nat.ne_of_lt (inv.fresh_calls cr hcr))
        · intro p r' hp hr'
          exact holderB_append_ne (inv.holder_cur p r' hp hr')
            (Nat.ne_of_gt (inv.fresh_cur p hp))
        · intro r' hr'
          exact holderB_append_ne (inv.holder_run r' hr')
            (Nat.ne_of_gt (inv.fresh_run r' hr'))
        · intro f hf
          exact holderB_append_ne (inv.holder_stack f hf)
            (Nat.ne_of_gt (inv.fresh_stack f hf))
        · intro d hd
          exact Nat.lt_of_lt_of_le (inv.cmt_lt_len d hd) (by simp)
        · intro r' b' j' hr' hb'
          cases hb'
          exact inv.run_lt_len r' hr'
        · intro r' hr'
          exact Nat.lt_of_lt_of_le (inv.run_lt_len r' hr') (by simp)
        · intro g hg
          obtain ⟨h1, p, hp⟩ := inv.started_ok g hg
          exact ⟨h1, p, List.mem_append_left _ hp⟩
        · intro d hd
          obtain ⟨p, hp⟩ := inv.cmt_src d hd
          exact ⟨p, List.mem_append_left _ hp⟩
        · intro r' hr'
          obtain ⟨p, hp⟩ := inv.run_src r' hr'
          exact ⟨p, List.mem_append_left _ hp⟩
  · -- idle: `#flush` starts a fresh generation
    have hrun : s.run = none := by
      have := inv.act_run
      cases hr : s.run with
      | none => rfl
      | some r => rw [hr] at this; exact absurd this (by simpa using hA)
    obtain ⟨hstack, hbuf, hque, hcur⟩ := inv.idle_clean hrun
    have hwait : s.waiting = none := inv.qw.trans hque
    simp only [callStep, if_neg hA]
    refine
      { act_run := rfl
        qw := inv.qw
        buf_q := by rw [hbuf, hque]; exact iff_of_true rfl rfl
        buf_idx := by intro b' j' h; rw [hbuf] at h; cases h
        idle_clean := by intro h; cases h
        fresh_cur := by intro p hp; rw [hcur] at hp; cases hp
        fresh_q := by intro q hq'; rw [hque] at hq'; cases hq'
        fresh_run := ?_
        fresh_stack := by intro f hf; rw [hstack] at hf; cases hf
        fresh_calls := ?_
        d_cq := by intro p q hp _; rw [hcur] at hp; cases hp
        d_cr := by intro p r' hp _; rw [hcur] at hp; cases hp
        d_cs := by intro p f hp _; rw [hcur] at hp; cases hp
        d_qr := by intro q r' hq' _; rw [hque] at hq'; cases hq'
        d_qs := by intro q f hq' _; rw [hque] at hq'; cases hq'
        d_rs := by intro r' f _ hf; rw [hstack] at hf; cases hf
        d_ss := by rw [hstack]; exact List.nodup_nil
        uns_cur := by intro p hp; rw [hcur] at hp; cases hp
        uns_q := by intro q hq'; rw [hque] at hq'; cases hq'
        uns_run := ?_
        uns_stack := by intro f hf; rw [hstack] at hf; cases hf
        settled_lt := fun p hp => inv.settled_lt p (Nat.le_of_succ_le hp)
        calls_ok := callsOK_append inv.calls_ok
          (by rw [inv.settled_lt s.nextId (Nat.le_refl _)]; trivial)
        holder_q := by intro q b' j' hq'; rw [hque] at hq'; cases hq'
        holder_cur := by intro p r' hp _; rw [hcur] at hp; cases hp
        holder_run := ?_
        holder_stack := by intro f hf; rw [hstack] at hf; cases hf
        stack_cmt := by intro f hf; rw [hstack] at hf; cases hf
        stack_fail := by intro f hf; rw [hstack] at hf; cases hf
        order_run := by intro r' _ f hf; rw [hstack] at hf; cases hf
        order_stack := by rw [hstack]; exact List.Pairwise.nil
        cmt_inc := inv.cmt_inc
        cmt_lt_run := ?_
        cmt_lt_len := ?_
        buf_gt_run := by intro r' b' j' _ hb'; rw [hbuf] at hb'; cases hb'
        run_lt_len := ?_
        started_ok := ?_
        cmt_src := ?_
        run_src := ?_ }
    · intro r' hr'
      cases hr'
      exact Nat.lt_succ_of_le (Nat.le_refl _)
    · intro cr hcr
      rcases List.mem_append.mp hcr with h' | h'
      · exact Nat.lt_succ_of_lt (inv.fresh_calls cr h')
      · rw [List.mem_singleton.mp h']; exact Nat.lt_succ_of_le (Nat.le_refl _)
    · intro r' hr'
      cases hr'
      exact inv.settled_lt s.nextId (Nat.le_refl _)
    · intro r' hr'
      cases hr'
      refine holderB_append_le ?_ (Nat.le_refl _)
      intro cr hcr hp
      exact absurd hp (Nat.ne_of_lt (inv.fresh_calls cr hcr))
    · intro r' hr' d hd
      cases hr'
      exact inv.cmt_lt_len d hd
    · intro d hd
      exact Nat.lt_of_lt_of_le (inv.cmt_lt_len d hd) (by simp)
    · intro r' hr'
      cases hr'
      simp
    · intro g hg
      rcases List.mem_append.mp hg with h' | h'
      · obtain ⟨h1, p, hp⟩ := inv.started_ok g h'
        exact ⟨h1, p, List.mem_append_left _ hp⟩
      · rw [List.mem_singleton.mp h']
        exact ⟨rfl, s.nextId, List.mem_append_right _ (List.mem_singleton.mpr rfl)⟩
    · intro d hd
      obtain ⟨p, hp⟩ := inv.cmt_src d hd
      exact ⟨p, List.mem_append_left _ hp⟩
    · intro r' hr'
      cases hr'
      exact ⟨s.nextId, List.mem_append_right _ (List.mem_singleton.mpr rfl)⟩

/-- The commit list after a generation finishes: extended by the
generation's record exactly on success. -/
def cmtAfter (s : Conf) (r : Running) : Option ErrVal → List CommitRec
  | none => s.committed ++ [CommitRec.mk r.content r.callIdx]
  | some _ => s.committed

/-- The failure list after a generation finishes: extended by the
generation's record exactly on failure. -/
def flAfter (s : Conf) (r : Running) : Option ErrVal → List FailRec
  | none => s.failures
  | some e => s.failures ++ [FailRec.mk r.callIdx e]

theorem callsOK_mono {calls : List CallRec} {m : List (Nat × POutcome)}
    {cmt cmt' : List CommitRec} {fl fl' : List FailRec}
    (h : CallsOK calls m cmt fl) (hc : ∀ d ∈ cmt, d ∈ cmt') (hf : ∀ x ∈ fl, x ∈ fl') :
    CallsOK calls m cmt' fl' :=
  fun cr hcr => (h cr hcr).mono hc hf

/-- Build the pre-`finally` facts for a finishing generation from the
invariant of the configuration it started the storage call in. -/
theorem prefin_mk {s : Conf} {r : Running} (inv : Inv s) (hr : s.run = some r)
    (ownErr : Option ErrVal) (t : Conf)
    (ht_w : t.waiting = s.waiting) (ht_q : t.queued = s.queued)
    (ht_buf : t.buffer = s.buffer) (ht_stack : t.stack = s.stack)
    (ht_next : t.nextId = s.nextId) (ht_calls : t.calls = s.calls)
    (ht_started : t.started = s.started)
    (ht_cmt : t.committed = cmtAfter s r ownErr)
    (ht_fl : t.failures = flAfter s r ownErr)
    (hm : ∀ x, (∀ p, s.current = some p → x ≠ p) →
      slookup t.settle x = slookup s.settle x)
    (hok : CallsOK t.calls t.settle t.committed t.failures) :
    PreFin t r ownErr := by
  have hcmt_sub : ∀ d ∈ s.committed, d ∈ t.committed := by
    intro d hd
    rw [ht_cmt]
    cases ownErr with
    | none => exact List.mem_append_left _ hd
    | some e => exact hd
  have hfl_sub : ∀ x ∈ s.failures, x ∈ t.failures := by
    intro x hx
    rw [ht_fl]
    cases ownErr with
    | none => exact hx
    | some e => exact List.mem_append_left _ hx
  refine
    { qw := by rw [ht_w, ht_q]; exact inv.qw
      buf_q := by rw [ht_buf, ht_q]; exact inv.buf_q
      buf_idx := by rw [ht_buf, ht_calls]; exact inv.buf_idx
      fresh_q := by rw [ht_q, ht_next]; exact inv.fresh_q
      fresh_run := by rw [ht_next]; exact inv.fresh_run r hr
      fresh_stack := by rw [ht_stack, ht_next]; exact inv.fresh_stack
      fresh_calls := by rw [ht_calls, ht_next]; exact inv.fresh_calls
      d_qr := by rw [ht_q]; exact fun q hq => inv.d_qr q r hq hr
      d_qs := by rw [ht_q, ht_stack]; exact fun q f hq hf => inv.d_qs q f hq hf
      d_rs := by rw [ht_stack]; exact fun f hf => inv.d_rs r f hr hf
      d_ss := by rw [ht_stack]; exact inv.d_ss
      uns_q := by
        rw [ht_q]
        intro q hq
        rw [hm q (fun p hp => (inv.d_cq p q hp hq).symm)]
        exact inv.uns_q q hq
      uns_run := by
        rw [hm r.prom (fun p hp => (inv.d_cr p r hp hr).symm)]
        exact inv.uns_run r hr
      uns_stack := by
        rw [ht_stack]
        intro f hf
        rw [hm f.prom (fun p hp => (inv.d_cs p f hp hf).symm)]
        exact inv.uns_stack f hf
      settled_lt := by
        rw [ht_next]
        intro x hx
        rw [hm x (fun p hp => Nat.ne_of_gt (Nat.lt_of_lt_of_le (inv.fresh_cur p hp) hx))]
        exact inv.settled_lt x hx
      calls_ok := hok
      holder_q := by rw [ht_q, ht_buf, ht_calls]; exact inv.holder_q
      holder_run := by rw [ht_calls]; exact inv.holder_run r hr
      holder_stack := by rw [ht_stack, ht_calls]; exact inv.holder_stack
      stack_cmt := by
        rw [ht_stack]
        exact fun f hf hown => hcmt_sub _ (inv.stack_cmt f hf hown)
      stack_fail := by
        rw [ht_stack]
        exact fun f hf e hown => hfl_sub _ (inv.stack_fail f hf e hown)
      order_run := by rw [ht_stack]; exact inv.order_run r hr
      order_stack := by rw [ht_stack]; exact inv.order_stack
      cmt_inc := ?_
      cmt_le_run := ?_
      cmt_lt_len := ?_
      buf_gt_run := by rw [ht_buf]; exact fun b j hb => inv.buf_gt_run r b j hr hb
      run_lt_len := by rw [ht_calls]; exact inv.run_lt_len r hr
      started_ok := by rw [ht_started, ht_calls]; exact inv.started_ok
      cmt_src := ?_
      run_src := by rw [ht_calls]; exact inv.run_src r hr
      own_cmt := ?_
      own_fail := ?_ }
  · -- cmt_inc
    rw [ht_cmt]
    cases ownErr with
    | some e => exact inv.cmt_inc
    | none =>
        rw [cmtAfter, List.map_append]
        refine List.pairwise_append.mpr ⟨inv.cmt_inc, List.pairwise_singleton _ _, ?_⟩
        intro x hx y hy
        obtain ⟨d, hd, hdx⟩ := List.mem_map.mp hx
        simp only [List.map_cons, List.map_nil, List.mem_singleton] at hy
        cases hdx
        rw [hy]
        exact inv.cmt_lt_run r hr d hd
  · -- cmt_le_run
    rw [ht_cmt]
    cases ownErr with
    | some e => exact fun d hd => Nat.le_of_lt (inv.cmt_lt_run r hr d hd)
    | none =>
        intro d hd
        rcases List.mem_append.mp hd with h' | h'
        · exact Nat.le_of_lt (inv.cmt_lt_run r hr d h')
        · rw [List.mem_singleton.mp h']
  · -- cmt_lt_len
    rw [ht_cmt, ht_calls]
    cases ownErr with
    | some e => exact inv.cmt_lt_len
    | none =>
        intro d hd
        rcases List.mem_append.mp hd with h' | h'
        · exact inv.cmt_lt_len d h'
        · rw [List.mem_singleton.mp h']; exact inv.run_lt_len r hr
  · -- cmt_src
    rw [ht_cmt, ht_calls]
    cases ownErr with
    | some e => exact inv.cmt_src
    | none =>
        intro d hd
        rcases List.mem_append.mp hd with h' | h'
        · exact inv.cmt_src d h'
        · rw [List.mem_singleton.mp h']; exact inv.run_src r hr
  · -- own_cmt
    intro hoe
    rw [ht_cmt, hoe]
    exact List.mem_append_right _ (List.mem_singleton.mpr rfl)
  · -- own_fail
    intro e hoe
    rw [ht_fl, hoe]
    exact List.mem_append_right _ (List.mem_singleton.mpr rfl)

/-- A storage-call completion preserves the invariant. -/
theorem inv_diskStep {s : Conf} (inv : Inv s) (o : IOOutcome) :
    Inv (diskStep s o) := by
  cases hr : s.run with
  | none => simpa [diskStep, hr] using inv
  | some r =>
      have hphase : ∀ e, o = IOOutcome.fail e →
          Inv (diskStep s o) := by
        intro e ho
        subst ho
        have hred : diskStep s (IOOutcome.fail e) =
            (let s1 := { s with failures := s.failures ++ [FailRec.mk r.callIdx e] }
             let s2 := match s1.current with
                       | some p =>
                           if e.isError then
                             { s1 with settle := settleP s1.settle p (POutcome.rejected e) }
                           else s1
                       | none => s1
             finallyStep s2 r (some e)) := by
          cases hp : r.phase <;> simp [diskStep, hr, hp]
        rw [hred]
        cases hc : s.current with
        | none =>
            simp only [hc]
            refine inv_finallyStep (prefin_mk inv hr (some e) _ rfl rfl rfl rfl rfl rfl rfl
              rfl rfl (fun x _ => rfl) ?_)
            exact callsOK_mono inv.calls_ok (fun d hd => hd)
              (fun x hx => List.mem_append_left _ hx)
        | some p =>
            simp only [hc]
            by_cases he : e.isError
            · simp only [if_pos he]
              refine inv_finallyStep (prefin_mk inv hr (some e) _ rfl rfl rfl rfl rfl rfl rfl
                rfl rfl ?_ ?_)
              · intro x hx
                exact slookup_settleP_ne _ _ _ _ (hx p hc)
              · intro cr hcr
                by_cases hpc : cr.prom = p
                · rw [hpc, slookup_settleP_none _ _ _ (inv.uns_cur p hc)]
                  exact ⟨r.callIdx,
                    List.mem_append_right _ (List.mem_singleton.mpr rfl),
                    inv.holder_cur p r hc hr cr hcr hpc⟩
                · rw [slookup_settleP_ne _ _ _ _ hpc]
                  exact (inv.calls_ok cr hcr).mono (fun d hd => hd)
                    (fun x hx => List.mem_append_left _ hx)
            · simp only [if_neg he]
              refine inv_finallyStep (prefin_mk inv hr (some e) _ rfl rfl rfl rfl rfl rfl rfl
                rfl rfl (fun x _ => rfl) ?_)
              exact callsOK_mono inv.calls_ok (fun d hd => hd)
                (fun x hx => List.mem_append_left _ hx)
      cases o with
      | fail e => exact hphase e rfl
      | ok =>
          cases hp : r.phase with
          | wfile =>
              -- the temp file is written; move to the rename
              simp only [diskStep, hr, hp]
              refine
                { act_run := by rw [inv.act_run, hr]; rfl
                  qw := inv.qw
                  buf_q := inv.buf_q
                  buf_idx := inv.buf_idx
                  idle_clean := by intro h; cases h
                  fresh_cur := inv.fresh_cur
                  fresh_q := inv.fresh_q
                  fresh_run := ?_
                  fresh_stack := inv.fresh_stack
                  fresh_calls := inv.fresh_calls
                  d_cq := inv.d_cq
                  d_cr := ?_
                  d_cs := inv.d_cs
                  d_qr := ?_
                  d_qs := inv.d_qs
                  d_rs := ?_
                  d_ss := inv.d_ss
                  uns_cur := inv.uns_cur
                  uns_q := inv.uns_q
                  uns_run := ?_
                  uns_stack := inv.uns_stack
                  settled_lt := inv.settled_lt
                  calls_ok := inv.calls_ok
                  holder_q := inv.holder_q
                  holder_cur := ?_
                  holder_run := ?_
                  holder_stack := inv.holder_stack
                  stack_cmt := inv.stack_cmt
                  stack_fail := inv.stack_fail
                  order_run := ?_
                  order_stack := inv.order_stack
                  cmt_inc := inv.cmt_inc
                  cmt_lt_run := ?_
                  cmt_lt_len := inv.cmt_lt_len
                  buf_gt_run := ?_
                  run_lt_len := ?_
                  started_ok := inv.started_ok
                  cmt_src := inv.cmt_src
                  run_src := ?_ }
              · intro r' h; cases h; exact inv.fresh_run r hr
              · intro p r' hp' h; cases h; exact inv.d_cr p r hp' hr
              · intro q r' hq h; cases h; exact inv.d_qr q r hq hr
              · intro r' f h hf; cases h; exact inv.d_rs r f hr hf
              · intro r' h; cases h; exact inv.uns_run r hr
              · intro p r' hp' h; cases h; exact inv.holder_cur p r hp' hr
              · intro r' h; cases h; exact inv.holder_run r hr
              · intro r' h f hf; cases h; exact inv.order_run r hr f hf
              · intro r' h d hd; cases h; exact inv.cmt_lt_run r hr d hd
              · intro r' b j h hb; cases h; exact inv.buf_gt_run r b j hr hb
              · intro r' h; cases h; exact inv.run_lt_len r hr
              · intro r' h; cases h; exact inv.run_src r hr
          | renm =>
              -- the rename succeeds: commit, settle the waiters, run `finally`
              simp only [diskStep, hr, hp]
              cases hc : s.current with
              | none =>
                  simp only [hc]
                  refine inv_finallyStep (prefin_mk inv hr none _ rfl rfl rfl rfl rfl rfl rfl
                    rfl rfl (fun x _ => rfl) ?_)
                  exact callsOK_mono inv.calls_ok
                    (fun d hd => List.mem_append_left _ hd) (fun x hx => hx)
              | some p =>
                  simp only [hc]
                  refine inv_finallyStep (prefin_mk inv hr none _ rfl rfl rfl rfl rfl rfl rfl
                    rfl rfl ?_ ?_)
                  · intro x hx
                    exact slookup_settleP_ne _ _ _ _ (hx p hc)
                  · intro cr hcr
                    by_cases hpc : cr.prom = p
                    · rw [hpc, slookup_settleP_none _ _ _ (inv.uns_cur p hc)]
                      exact ⟨CommitRec.mk r.content r.callIdx,
                        List.mem_append_right _ (List.mem_singleton.mpr rfl),
                        inv.holder_cur p r hc hr cr hcr hpc⟩
                    · rw [slookup_settleP_ne _ _ _ _ hpc]
                      exact (inv.calls_ok cr hcr).mono
                        (fun d hd => List.mem_append_left _ hd) (fun x hx => hx)

/-- Every step of the compact variant preserves the invariant. -/
theorem inv_step {s : Conf} (inv : Inv s) (e : Ev) : Inv (step s e) := by
  cases e with
  | call c => exact inv_callStep inv c
  | disk o => exact inv_diskStep inv o

/-- A freshly constructed writer satisfies the invariant. -/
theorem inv_mkConf (path : String) : Inv (mkConf path) :=
  { act_run := rfl
    qw := rfl
    buf_q := iff_of_true rfl rfl
    buf_idx := fun _ _ h => by cases h
    idle_clean := fun _ => ⟨rfl, rfl, rfl, rfl⟩
    fresh_cur := fun _ h => by cases h
    fresh_q := fun _ h => by cases h
    fresh_run := fun _ h => by cases h
    fresh_stack := fun _ h => by cases h
    fresh_calls := fun _ h => by cases h
    d_cq := fun _ _ h => by cases h
    d_cr := fun _ _ h => by cases h
    d_cs := fun _ _ h => by cases h
    d_qr := fun _ _ h => by cases h
    d_qs := fun _ _ h => by cases h
    d_rs := fun _ _ h => by cases h
    d_ss := List.nodup_nil
    uns_cur := fun _ h => by cases h
    uns_q := fun _ h => by cases h
    uns_run := fun _ h => by cases h
    uns_stack := fun _ h => by cases h
    settled_lt := fun _ _ => rfl
    calls_ok := fun _ h => by cases h
    holder_q := fun _ _ _ h => by cases h
    holder_cur := fun _ _ h => by cases h
    holder_run := fun _ h => by cases h
    holder_stack := fun _ h => by cases h
    stack_cmt := fun _ h => by cases h
    stack_fail := fun _ h => by cases h
    order_run := fun _ h => by cases h
    order_stack := List.Pairwise.nil
    cmt_inc := List.Pairwise.nil
    cmt_lt_run := fun _ h => by cases h
    cmt_lt_len := fun _ h => by cases h
    buf_gt_run := fun _ _ _ h => by cases h
    run_lt_len := fun _ h => by cases h
    started_ok := fun _ h => by cases h
    cmt_src := fun _ h => by cases h
    run_src := fun _ h => by cases h }

/-- The invariant holds along every execution. -/
theorem inv_exec : ∀ (evs : List Ev) (s : Conf), Inv s → Inv (exec s evs) := by
  intro evs
  induction evs with
  | nil => intro s inv; exact inv
  | cons e es ih => intro s inv; exact ih (step s e) (inv_step inv e)

/-- Every reachable configuration satisfies the invariant. -/
theorem inv_reaches {s : Conf} (h : Reaches s) : Inv s := by
  obtain ⟨path, evs, rfl⟩ := h
  exact inv_exec evs (mkConf path) (inv_mkConf path)

/-!
## Detached promises never settle

A promise that is unsettled and no longer referenced by any of the
writer's slots, the running generation, or the suspended frames can never
be settled by any future event: the machine only ever settles promises it
still references.  This is what strands the coalesced waiters when the
thrown value is not an `Error` instance. -/

def Detached (s : Conf) (p : Nat) : Prop :=
  p < s.nextId ∧ slookup s.settle p = none ∧ s.current ≠ some p ∧
  s.waiting ≠ some p ∧ s.queued ≠ some p ∧
  (∀ r, s.run = some r → r.prom ≠ p) ∧ (∀ f ∈ s.stack, f.prom ≠ p)

theorem detached_finallyStep {s : Conf} {r : Running} {ownErr : Option ErrVal} {p : Nat}
    (h1 : p < s.nextId) (h2 : slookup s.settle p = none)
    (h4 : s.waiting ≠ some p)
    (h7 : ∀ f ∈ s.stack, f.prom ≠ p) (hrp : r.prom ≠ p) :
    Detached (finallyStep s r ownErr) p := by
  unfold finallyStep
  cases hb : s.buffer with
  | some bj =>
      obtain ⟨b, j⟩ := bj
      simp only [hb, startNext]
      refine ⟨Nat.lt_succ_of_lt h1, h2, h4, fun h => Option.noConfusion h,
        fun h => Option.noConfusion h, ?_, ?_⟩
      · intro r' hr'
        cases hr'
        exact Nat.ne_of_gt h1
      · intro f hf
        rcases List.mem_cons.mp hf with h' | h'
        · cases h'; exact hrp
        · exact h7 f h'
  | none =>
      simp only [hb, completeFlush]
      refine ⟨h1, ?_, h4, fun h => Option.noConfusion h, fun h => Option.noConfusion h,
        fun r' hr' => Option.noConfusion hr', fun f hf => absurd hf (List.not_mem_nil f)⟩
      rw [slookup_unwind_notmem _ _ _ _ (fun f hf => fun hp => (h7 f hf) hp.symm),
        slookup_settleP_ne _ _ _ _ (fun hp => hrp hp.symm)]
      exact h2

theorem detached_step {s : Conf} {p : Nat} (h : Detached s p) (e : Ev) :
    Detached (step s e) p := by
  obtain ⟨h1, h2, h3, h4, h5, h6, h7⟩ := h
  cases e with
  | call c =>
      by_cases hA : s.active
      · cases hq : s.queued with
        | some q =>
            simp only [step, callStep, if_pos hA, hq]
            exact ⟨h1, h2, h3, h4, by rw [← hq]; exact h5, h6, h7⟩
        | none =>
            simp only [step, callStep, if_pos hA, hq]
            refine ⟨Nat.lt_succ_of_lt h1, h2, h3, ?_, ?_, h6, h7⟩
            · intro hcon
              cases hcon
              exact Nat.lt_irrefl _ h1
            · intro hcon
              cases hcon
              exact Nat.lt_irrefl _ h1
      · simp only [step, callStep, if_neg hA]
        refine ⟨Nat.lt_succ_of_lt h1, h2, h3, h4, h5, ?_, h7⟩
        intro r' hr'
        cases hr'
        exact Nat.ne_of_gt h1
  | disk o =>
      cases hr : s.run with
      | none => simpa [step, diskStep, hr] using ⟨h1, h2, h3, h4, h5, h6, h7⟩
      | some r =>
          have hrp : r.prom ≠ p := h6 r hr
          have hset : ∀ (q : Nat) (oo : POutcome), s.current = some q →
              slookup (settleP s.settle q oo) p = none := by
            intro q oo hq
            rw [slookup_settleP_ne _ _ _ _ (fun hp => h3 (by rw [hq, hp]))]
            exact h2
          have hfail : ∀ e, Detached (diskStep s (IOOutcome.fail e)) p := by
            intro e
            have hred : diskStep s (IOOutcome.fail e) =
                (let s1 := { s with failures := s.failures ++ [FailRec.mk r.callIdx e] }
                 let s2 := match s1.current with
                           | some q =>
                               if e.isError then
                                 { s1 with settle := settleP s1.settle q (POutcome.rejected e) }
                               else s1
                           | none => s1
                 finallyStep s2 r (some e)) := by
              cases hph : r.phase <;> simp [diskStep, hr, hph]
            rw [hred]
            cases hc : s.current with
            | none =>
                simp only [hc]
                exact detached_finallyStep h1 h2 h4 h7 hrp
            | some q =>
                simp only [hc]
                by_cases he : e.isError
                · simp only [if_pos he]
                  exact detached_finallyStep h1 (hset q _ hc) h4 h7 hrp
                · simp only [if_neg he]
                  exact detached_finallyStep h1 h2 h4 h7 hrp
          cases o with
          | fail e => exact hfail e
          | ok =>
              cases hph : r.phase with
              | wfile =>
                  simp only [step, diskStep, hr, hph]
                  refine ⟨h1, h2, h3, h4, h5, ?_, h7⟩
                  intro r' hr'
                  cases hr'
                  exact hrp
              | renm =>
                  simp only [step, diskStep, hr, hph]
                  cases hc : s.current with
                  | none =>
                      simp only [hc]
                      exact detached_finallyStep h1 h2 h4 h7 hrp
                  | some q =>
                      simp only [hc]
                      exact detached_finallyStep h1 (hset q _ hc) h4 h7 hrp

/-- A detached promise stays unsettled under any sequence of events. -/
theorem detached_exec {s : Conf} {p : Nat} (h : Detached s p) :
    ∀ evs : List Ev, slookup (exec s evs).settle p = none := by
  suffices hs : ∀ evs s, Detached s p → Detached (exec s evs) p by
    intro evs
    exact (hs evs s h).2.1
  intro evs
  induction evs with
  | nil => intro s hd; exact hd
  | cons e es ih => intro s hd; exact ih (step s e) (detached_step hd e)

/-!
## Equivalence of the two variants on truthy payloads

The only semantic difference between the two classes in `index.ts` is the
`finally` block's test of the buffered payload: `!== null` in the compact
variant versus truthiness (`if (next)`) in the documented one.  They
coincide whenever the buffer never holds the empty string. -/

/-- The buffer never holds the (falsy) empty string. -/
def BufNE (s : Conf) : Prop := ∀ j, s.buffer ≠ some ("", j)

theorem finallyStepD_eq {s : Conf} {r : Running} {ownErr : Option ErrVal}
    (h : BufNE s) : finallyStepD s r ownErr = finallyStep s r ownErr := by
  unfold finallyStepD finallyStep
  cases hb : s.buffer with
  | none => simp [hb]
  | some bj =>
      obtain ⟨b, j⟩ := bj
      have hbne : b ≠ "" := fun hcon => h j (by rw [hb, hcon])
      simp [hb, hbne]

theorem diskStepD_eq {s : Conf} (h : BufNE s) (o : IOOutcome) :
    diskStepD s o = diskStep s o := by
  unfold diskStepD diskStep
  cases hr : s.run with
  | none => rfl
  | some r =>
      have hbuf : ∀ (t : Conf), t.buffer = s.buffer → ∀ ownErr,
          finallyStepD t r ownErr = finallyStep t r ownErr := by
        intro t ht ownErr
        exact finallyStepD_eq (fun j hj => h j (ht ▸ hj))
      cases hph : r.phase with
      | wfile =>
          cases o with
          | ok => simp only [hph]
          | fail e =>
              simp only [hph]
              cases hc : s.current with
              | none => simp only [hc]; { apply hbuf; rfl }
              | some q =>
                  simp only [hc]
                  by_cases he : e.isError
                  · simp only [if_pos he]; { apply hbuf; rfl }
                  · simp only [if_neg he]; { apply hbuf; rfl }
      | renm =>
          cases o with
          | ok =>
              simp only [hph]
              cases hc : s.current with
              | none => simp only [hc]; { apply hbuf; rfl }
              | some q => simp only [hc]; { apply hbuf; rfl }
          | fail e =>
              simp only [hph]
              cases hc : s.current with
              | none => simp only [hc]; { apply hbuf; rfl }
              | some q =>
                  simp only [hc]
                  by_cases he : e.isError
                  · simp only [if_pos he]; { apply hbuf; rfl }
                  · simp only [if_neg he]; { apply hbuf; rfl }

theorem bufNE_step {s : Conf} (h : BufNE s) (e : Ev)
    (he : ∀ c, e = Ev.call c → c ≠ "") : BufNE (step s e) := by
  cases e with
  | call c =>
      have hc : c ≠ "" := he c rfl
      by_cases hA : s.active
      · cases hq : s.queued with
        | some q =>
            simp only [step, callStep, if_pos hA, hq]
            intro j hj
            cases hj
            exact hc rfl
        | none =>
            simp only [step, callStep, if_pos hA, hq]
            intro j hj
            cases hj
            exact hc rfl
      · simp only [step, callStep, if_neg hA]
        exact fun j => h j
  | disk o =>
      cases hr : s.run with
      | none => simpa [step, diskStep, hr] using h
      | some r =>
          have hfin : ∀ (t : Conf), t.buffer = s.buffer → ∀ ownErr j,
              (finallyStep t r ownErr).buffer ≠ some ("", j) := by
            intro t ht ownErr j
            unfold finallyStep
            cases hb : t.buffer with
            | some bj =>
                obtain ⟨b, j'⟩ := bj
                simp [hb, startNext]
            | none => simp [hb, completeFlush]
          have hfail : ∀ e, BufNE (diskStep s (IOOutcome.fail e)) := by
            intro e
            have hred : diskStep s (IOOutcome.fail e) =
                (let s1 := { s with failures := s.failures ++ [FailRec.mk r.callIdx e] }
                 let s2 := match s1.current with
                           | some q =>
                               if e.isError then
                                 { s1 with settle := settleP s1.settle q (POutcome.rejected e) }
                               else s1
                           | none => s1
                 finallyStep s2 r (some e)) := by
              cases hph : r.phase <;> simp [diskStep, hr, hph]
            rw [hred]
            cases hc : s.current with
            | none => simp only [hc]; intro j; { apply hfin; rfl }
            | some q =>
                simp only [hc]
                by_cases hie : e.isError
                · simp only [if_pos hie]; intro j; { apply hfin; rfl }
                · simp only [if_neg hie]; intro j; { apply hfin; rfl }
          cases o with
          | fail e => exact hfail e
          | ok =>
              cases hph : r.phase with
              | wfile =>
                  simp only [step, diskStep, hr, hph]
                  exact fun j => h j
              | renm =>
                  simp only [step, diskStep, hr, hph]
                  cases hc : s.current with
                  | none => simp only [hc]; intro j; { apply hfin; rfl }
                  | some q => simp only [hc]; intro j; { apply hfin; rfl }

/-- The two variants compute identical executions as long as no call ever
passes the empty string. -/
theorem execD_eq_exec : ∀ (evs : List Ev) (s : Conf), BufNE s →
    (∀ c, Ev.call c ∈ evs → c ≠ "") → execD s evs = exec s evs := by
  intro evs
  induction evs with
  | nil => intro s _ _; rfl
  | cons e es ih =>
      intro s hb he
      have hstep : stepD s e = step s e := by
        cases e with
        | call c => rfl
        | disk o => exact diskStepD_eq hb o
      rw [execD, exec, hstep]
      exact ih (step s e) (bufNE_step hb e (fun c hc => he c (hc ▸ List.mem_cons_self e es)))
        (fun c hc => he c (List.mem_cons_of_mem e hc))

/-!
## Temp-path derivation
-/

theorem takeWhile_append_all {α : Type} (p : α → Bool) (l₁ l₂ : List α)
    (h : ∀ x ∈ l₁, p x = true) :
    (l₁ ++ l₂).takeWhile p = l₁ ++ l₂.takeWhile p := by
  induction l₁ with
  | nil => rfl
  | cons a as ih =>
      simp only [List.cons_append, List.takeWhile, h a (List.mem_cons_self a as)]
      exact congrArg (List.cons a) (ih (fun x hx => h x (List.mem_cons_of_mem a hx)))

theorem dropWhile_append_all {α : Type} (p : α → Bool) (l₁ l₂ : List α)
    (h : ∀ x ∈ l₁, p x = true) :
    (l₁ ++ l₂).dropWhile p = l₂.dropWhile p := by
  induction l₁ with
  | nil => rfl
  | cons a as ih =>
      simp only [List.cons_append, List.dropWhile, h a (List.mem_cons_self a as)]
      exact ih (fun x hx => h x (List.mem_cons_of_mem a hx))

theorem takeWhile_cons_neg {α : Type} (p : α → Bool) (a : α) (l : List α)
    (h : p a = false) : (a :: l).takeWhile p = [] := by
  simp [List.takeWhile, h]

theorem dropWhile_cons_neg {α : Type} (p : α → Bool) (a : α) (l : List α)
    (h : p a = false) : (a :: l).dropWhile p = a :: l := by
  simp [List.dropWhile, h]

/-- A plain path segment: non-empty and not one of the special `.` and
`..` segments node's normalization resolves away. -/
def normalSeg (seg : List Char) : Prop :=
  seg ≠ [] ∧ seg ≠ ['.'] ∧ seg ≠ ['.', '.']

theorem splitSlash_ne_nil (cs : List Char) : splitSlash cs ≠ [] := by
  cases cs with
  | nil => simp [splitSlash]
  | cons c cs =>
      by_cases hc : c = '/'
      · simp [splitSlash, hc]
      · simp only [splitSlash, if_neg hc]
        cases h : splitSlash cs <;> simp

theorem splitSlash_append (xs ys : List Char) :
    splitSlash (xs ++ '/' :: ys) = splitSlash xs ++ splitSlash ys := by
  induction xs with
  | nil => simp [splitSlash]
  | cons c cs ih =>
      by_cases hc : c = '/'
      · simp [splitSlash, hc, ih]
      · obtain ⟨s, ss, hs⟩ : ∃ s ss, splitSlash cs = s :: ss := by
          cases h : splitSlash cs with
          | nil => exact absurd h (splitSlash_ne_nil cs)
          | cons s ss => exact ⟨s, ss, rfl⟩
        simp only [List.cons_append, splitSlash, if_neg hc, List.append_eq, ih, hs]

theorem splitSlash_no_slash (cs : List Char) (h : ∀ c ∈ cs, c ≠ '/') :
    splitSlash cs = [cs] := by
  induction cs with
  | nil => rfl
  | cons c cs ih =>
      simp only [splitSlash, if_neg (h c (List.mem_cons_self c cs)),
        ih (fun x hx => h x (List.mem_cons_of_mem c hx))]

theorem joinSegs_cons_cons (c : Char) (s : List Char) (ss : List (List Char)) :
    joinSegs ((c :: s) :: ss) = c :: joinSegs (s :: ss) := by
  cases ss <;> rfl

theorem joinSegs_splitSlash (cs : List Char) : joinSegs (splitSlash cs) = cs := by
  induction cs with
  | nil => rfl
  | cons c cs ih =>
      by_cases hc : c = '/'
      · obtain ⟨s, ss, hs⟩ : ∃ s ss, splitSlash cs = s :: ss := by
          cases h : splitSlash cs with
          | nil => exact absurd h (splitSlash_ne_nil cs)
          | cons s ss => exact ⟨s, ss, rfl⟩
        rw [hs] at ih
        simp only [splitSlash, if_pos hc, hs, joinSegs, hc, ih, List.nil_append]
      · obtain ⟨s, ss, hs⟩ : ∃ s ss, splitSlash cs = s :: ss := by
          cases h : splitSlash cs with
          | nil => exact absurd h (splitSlash_ne_nil cs)
          | cons s ss => exact ⟨s, ss, rfl⟩
        rw [hs] at ih
        simp only [splitSlash, if_neg hc, hs, joinSegs_cons_cons, ih]

theorem joinSegs_cons_ne_nil (s : List Char) (ss : List (List Char))
    (h : ss ≠ []) : joinSegs (s :: ss) = s ++ '/' :: joinSegs ss := by
  cases ss with
  | nil => exact absurd rfl h
  | cons s2 ss2 => rfl

theorem joinSegs_append_singleton (segs : List (List Char)) (b : List Char)
    (h : segs ≠ []) : joinSegs (segs ++ [b]) = joinSegs segs ++ '/' :: b := by
  induction segs with
  | nil => exact absurd rfl h
  | cons s ss ih =>
      cases hss : ss with
      | nil => simp [joinSegs]
      | cons s2 ss2 =>
          subst hss
          have ih2 := ih (by simp)
          rw [List.cons_append] at ih2
          rw [List.cons_append, List.cons_append,
            joinSegs_cons_ne_nil s (s2 :: (ss2 ++ [b])) (by simp), ih2,
            joinSegs_cons_ne_nil s (s2 :: ss2) (by simp)]
          simp

theorem foldl_normStep_normal (ab : Bool) (segs : List (List Char))
    (h : ∀ seg ∈ segs, normalSeg seg) :
    ∀ acc, List.foldl (normStep ab) acc segs = segs.reverse ++ acc := by
  induction segs with
  | nil => intro acc; rfl
  | cons s ss ih =>
      intro acc
      obtain ⟨h1, h2, h3⟩ := h s (List.mem_cons_self s ss)
      have hstep : normStep ab acc s = s :: acc := by
        unfold normStep
        rw [if_neg (by intro hcon; rcases hcon with hcon | hcon; exact h1 hcon; exact h2 hcon),
          if_neg h3]
      rw [List.foldl_cons, hstep, ih (fun x hx => h x (List.mem_cons_of_mem s hx))]
      simp

theorem normSegs_normal (ab : Bool) (segs : List (List Char))
    (h : ∀ seg ∈ segs, normalSeg seg) : normSegs ab segs = segs := by
  unfold normSegs
  rw [foldl_normStep_normal ab segs h []]
  simp

theorem normSegs_cons_nil (ab : Bool) (segs : List (List Char)) :
    normSegs ab ([] :: segs) = normSegs ab segs := by
  unfold normSegs
  rw [List.foldl_cons]
  have : normStep ab [] [] = [] := by unfold normStep; rw [if_pos (Or.inl rfl)]
  rw [this]

/-- Node's normalize leaves a path of the form `xs ++ "/" ++ b` alone
when `xs` is a normalized directory (all segments plain, or a root slash
followed by plain segments) and `b` is a plain slash-free final
segment. -/
theorem normalize_sep (xs b : List Char) (hb : normalSeg b)
    (hbs : ∀ c ∈ b, c ≠ '/')
    (hxs : (∀ seg ∈ splitSlash xs, normalSeg seg) ∨
      (∃ R, xs = '/' :: R ∧ ∀ seg ∈ splitSlash R, normalSeg seg)) :
    normalize (String.mk (xs ++ '/' :: b)) = String.mk (xs ++ '/' :: b) := by
  obtain ⟨hb1, hb2, hb3⟩ := hb
  obtain ⟨bc, bcs, hbc⟩ : ∃ bc bcs, b = bc :: bcs := by
    cases hbb : b with
    | nil => exact absurd hbb hb1
    | cons bc bcs => exact ⟨bc, bcs, rfl⟩
  have hdata : (String.mk (xs ++ '/' :: b)).data = xs ++ '/' :: b := rfl
  have hnempty : String.mk (xs ++ '/' :: b) ≠ "" := by
    intro hcon
    have := congrArg String.data hcon
    rw [hdata] at this
    simp at this
  have htrail : (xs ++ '/' :: b).getLast? ≠ some '/' := by
    rw [List.getLast?_append_cons, hbc, List.getLast?_cons_cons]
    intro hcon
    obtain ⟨hne, heq⟩ := List.mem_getLast?_eq_getLast (Option.mem_def.mpr hcon)
    have hmem := List.getLast_mem hne
    rw [← heq] at hmem
    exact hbs '/' (by rw [hbc]; exact hmem) rfl
  have hsplit : splitSlash (xs ++ '/' :: b) = splitSlash xs ++ [b] := by
    rw [splitSlash_append, splitSlash_no_slash b hbs]
  cases hxs with
  | inl hnorm =>
      have hxs_ne : xs ≠ [] := by
        intro hcon
        have : ([] : List Char) ∈ splitSlash xs := by
          rw [hcon]; simp [splitSlash]
        exact (hnorm [] this).1 rfl
      have hhead : (xs ++ '/' :: b).head? ≠ some '/' := by
        cases hxx : xs with
        | nil => exact absurd hxx hxs_ne
        | cons x xs' =>
            simp only [List.cons_append, List.head?_cons]
            intro hcon
            cases hcon
            have : ([] : List Char) ∈ splitSlash xs := by
              rw [hxx]; simp [splitSlash]
            exact (hnorm [] this).1 rfl
      have hall : ∀ seg ∈ splitSlash xs ++ [b], normalSeg seg := by
        intro seg hseg
        rcases List.mem_append.mp hseg with h' | h'
        · exact hnorm seg h'
        · rw [List.mem_singleton.mp h']; exact ⟨hb1, hb2, hb3⟩
      simp only [normalize, hdata]
      rw [if_neg hnempty, decide_eq_false hhead, decide_eq_false htrail, hsplit,
        normSegs_normal _ _ hall]
      rw [if_neg (by simp)]
      simp only [Bool.false_eq_true, if_false]
      rw [joinSegs_append_singleton _ _ (splitSlash_ne_nil xs), joinSegs_splitSlash]
  | inr habs =>
      obtain ⟨R, hR, hnorm⟩ := habs
      have hhead : (xs ++ '/' :: b).head? = some '/' := by
        rw [hR]; rfl
      have hall : ∀ seg ∈ splitSlash R ++ [b], normalSeg seg := by
        intro seg hseg
        rcases List.mem_append.mp hseg with h' | h'
        · exact hnorm seg h'
        · rw [List.mem_singleton.mp h']; exact ⟨hb1, hb2, hb3⟩
      have hsplit2 : splitSlash (xs ++ '/' :: b) = [] :: (splitSlash R ++ [b]) := by
        rw [hsplit, hR]
        simp [splitSlash, splitSlash_no_slash b hbs]
      simp only [normalize, hdata]
      rw [if_neg hnempty, decide_eq_true hhead, decide_eq_false htrail, hsplit2,
        normSegs_cons_nil, normSegs_normal _ _ hall]
      rw [if_neg (by simp)]
      simp only [Bool.false_eq_true, if_false]
      rw [joinSegs_append_singleton _ _ (splitSlash_ne_nil R), joinSegs_splitSlash, hR]
      rfl

/-- The temp path of a target `D ++ "/" ++ F` (normalized directory `D`,
plain filename `F`) is `D` joined with `"." ++ F ++ ".tmp"` — the
hidden-marker, tmp-suffixed sibling of the target. -/
theorem temp_formula (D F : String) (hF : F ≠ "")
    (hFs : ∀ ch ∈ F.data, ch ≠ '/')
    (hD : (∀ seg ∈ splitSlash D.data, normalSeg seg) ∨
      (∃ R, D.data = '/' :: R ∧ ∀ seg ∈ splitSlash R, normalSeg seg)) :
    temp (D ++ "/" ++ F) = D ++ "/" ++ ("." ++ F ++ ".tmp") := by
  have hFd : F.data ≠ [] := fun hcon => hF (String.ext hcon)
  have hDd : D.data ≠ [] := by
    intro hcon
    cases hD with
    | inl hnorm =>
        have : ([] : List Char) ∈ splitSlash D.data := by
          rw [hcon]; simp [splitSlash]
        exact (hnorm [] this).1 rfl
    | inr habs => obtain ⟨R, hR, _⟩ := habs; rw [hcon] at hR; cases hR
  have hrev : (D ++ "/" ++ F).data.reverse = F.data.reverse ++ '/' :: D.data.reverse := by
    simp [String.data_append]
  obtain ⟨a, as, hFr⟩ : ∃ a as, F.data.reverse = a :: as := by
    cases hfr : F.data.reverse with
    | nil => exact absurd (by simpa using hfr) hFd
    | cons a as => exact ⟨a, as, rfl⟩
  have hmem : ∀ x ∈ a :: as, x ∈ F.data := by
    intro x hx
    rw [← hFr] at hx
    exact List.mem_reverse.mp hx
  have hFall : ∀ x ∈ a :: as, (fun c => !isSlash c) x = true := by
    intro x hx
    simp [isSlash, hFs x (hmem x hx)]
  have hslash : (fun c => !isSlash c) '/' = false := by decide
  have haslash : isSlash a = false := by
    simp [isSlash, hFs a (hmem a (List.mem_cons_self a as))]
  have hbase : basename (D ++ "/" ++ F) = F := by
    unfold basename
    rw [hrev, hFr, List.cons_append,
      dropWhile_cons_neg isSlash a _ haslash, ← List.cons_append,
      takeWhile_append_all (fun c => !isSlash c) _ _ hFall,
      takeWhile_cons_neg (fun c => !isSlash c) '/' _ hslash,
      List.append_nil, ← hFr, List.reverse_reverse]
  have hdir : dirname (D ++ "/" ++ F) = D := by
    unfold dirname
    simp only [hrev, hFr]
    rw [List.cons_append, dropWhile_cons_neg isSlash a _ haslash, ← List.cons_append,
      dropWhile_append_all (fun c => !isSlash c) _ _ hFall,
      dropWhile_cons_neg (fun c => !isSlash c) '/' _ hslash]
    have hne : D.data.reverse.isEmpty = false := by
      cases hdr : D.data.reverse with
      | nil => exact absurd (by simpa using hdr) hDd
      | cons d ds => rfl
    simp only [hne, if_false, List.reverse_reverse, Bool.false_eq_true]
  have hDne : D ≠ "" := fun hcon => hDd (by rw [hcon])
  have hbdata : ("." ++ F ++ ".tmp").data = '.' :: (F.data ++ ['.', 't', 'm', 'p']) := by
    simp [String.data_append]
  have hbne : ("." ++ F ++ ".tmp") ≠ "" := by
    intro hcon
    have h2 := congrArg String.data hcon
    rw [hbdata] at h2
    cases h2
  have hbnorm : normalSeg ("." ++ F ++ ".tmp").data := by
    rw [hbdata]
    refine ⟨by simp, ?_, ?_⟩
    · intro hcon
      have := congrArg List.length hcon
      simp at this
    · intro hcon
      have := congrArg List.length hcon
      simp at this
  have hbslash : ∀ c ∈ ("." ++ F ++ ".tmp").data, c ≠ '/' := by
    rw [hbdata]
    intro c hc
    rcases List.mem_cons.mp hc with h' | h'
    · rw [h']; decide
    · rcases List.mem_append.mp h' with h2 | h2
      · exact hFs c h2
      · intro hcon
        rw [hcon] at h2
        simp at h2
  unfold temp
  rw [hbase, hdir]
  unfold join
  rw [if_neg (fun hcon => hDne hcon.1), if_neg (fun hcon => hDne hcon), if_neg hbne]
  have hcat : D ++ "/" ++ ("." ++ F ++ ".tmp") =
      String.mk (D.data ++ '/' :: ("." ++ F ++ ".tmp").data) := by
    apply String.ext
    simp [String.data_append]
  rw [hcat, normalize_sep _ _ hbnorm hbslash hD]

/-- The writer's paths are fixed at construction and never touched by any
event. -/
theorem paths_exec (p : String) (evs : List Ev) :
    (exec (mkConf p) evs).tmpName = temp p ∧ (exec (mkConf p) evs).target = p := by
  suffices h : ∀ (evs : List Ev) (s : Conf),
      (exec s evs).tmpName = s.tmpName ∧ (exec s evs).target = s.target by
    exact h evs (mkConf p)
  intro evs
  induction evs with
  | nil => exact fun s => ⟨rfl, rfl⟩
  | cons e es ih =>
      intro s
      have hstep : (step s e).tmpName = s.tmpName ∧ (step s e).target = s.target := by
        cases e with
        | call c =>
            by_cases hA : s.active
            · cases hq : s.queued <;> simp [step, callStep, hA, hq]
            · simp [step, callStep, hA]
        | disk o =>
            cases hr : s.run with
            | none => simp [step, diskStep, hr]
            | some r =>
                have hfin : ∀ (t : Conf) (ownErr : Option ErrVal),
                    (finallyStep t r ownErr).tmpName = t.tmpName ∧
                    (finallyStep t r ownErr).target = t.target := by
                  intro t ownErr
                  unfold finallyStep
                  cases hb : t.buffer with
                  | some bj => obtain ⟨b, j⟩ := bj; simp [hb, startNext]
                  | none => simp [hb, completeFlush]
                cases hph : r.phase with
                | wfile =>
                    cases o with
                    | ok => simp [step, diskStep, hr, hph]
                    | fail e =>
                        simp only [step, diskStep, hr, hph]
                        cases hc : s.current with
                        | none => simpa [hc] using hfin _ _
                        | some q =>
                            simp only [hc]
                            by_cases he : e.isError
                            · simpa [if_pos he] using hfin _ _
                            · simpa [if_neg he] using hfin _ _
                | renm =>
                    cases o with
                    | ok =>
                        simp only [step, diskStep, hr, hph]
                        cases hc : s.current with
                        | none => simpa [hc] using hfin _ _
                        | some q => simpa [hc] using hfin _ _
                    | fail e =>
                        simp only [step, diskStep, hr, hph]
                        cases hc : s.current with
                        | none => simpa [hc] using hfin _ _
                        | some q =>
                            simp only [hc]
                            by_cases he : e.isError
                            · simpa [if_pos he] using hfin _ _
                            · simpa [if_neg he] using hfin _ _
      rw [exec]
      obtain ⟨h1, h2⟩ := ih (step s e)
      exact ⟨h1.trans hstep.1, h2.trans hstep.2⟩

/-!
## Facts about one generation finishing
-/

theorem slookup_finallyStep (s : Conf) (r : Running) (ownErr : Option ErrVal) (P : Nat)
    (hPr : P ≠ r.prom) (hPs : ∀ f ∈ s.stack, P ≠ f.prom) :
    slookup (finallyStep s r ownErr).settle P = slookup s.settle P := by
  unfold finallyStep
  cases hb : s.buffer with
  | some bj =>
      obtain ⟨b, j⟩ := bj
      simp [hb, startNext]
  | none =>
      simp only [hb, completeFlush]
      rw [slookup_unwind_notmem _ _ _ _ hPs, slookup_settleP_ne _ _ _ _ hPr]

theorem finallyStep_current (s : Conf) (r : Running) (ownErr : Option ErrVal) :
    (finallyStep s r ownErr).current = s.waiting := by
  unfold finallyStep
  cases hb : s.buffer with
  | some bj =>
      obtain ⟨b, j⟩ := bj
      simp [hb, startNext]
  | none => simp [hb, completeFlush]

theorem diskStep_fail_eq (s : Conf) (r : Running) (hr : s.run = some r) (e : ErrVal) :
    diskStep s (IOOutcome.fail e) =
      (let s1 := { s with failures := s.failures ++ [FailRec.mk r.callIdx e] }
       let s2 := match s1.current with
                 | some q =>
                     if e.isError then
                       { s1 with settle := settleP s1.settle q (POutcome.rejected e) }
                     else s1
                 | none => s1
       finallyStep s2 r (some e)) := by
  cases hph : r.phase <;> simp [diskStep, hr, hph]

/-- On a successful rename, the waiters attached to the running generation
resolve. -/
theorem settle_ok_cur {s : Conf} {r : Running} {P : Nat} (inv : Inv s)
    (hr : s.run = some r) (hph : r.phase = Phase.renm) (hc : s.current = some P) :
    slookup (diskStep s IOOutcome.ok).settle P = some POutcome.resolved := by
  simp only [diskStep, hr, hph, hc]
  refine Eq.trans (slookup_finallyStep _ _ _ _ ?_ ?_) ?_
  · exact inv.d_cr P r hc hr
  · exact fun f hf => inv.d_cs P f hc hf
  · exact slookup_settleP_none _ _ _ (inv.uns_cur P hc)

/-- On a storage failure carrying an `Error` instance, the waiters
attached to the running generation reject with that error. -/
theorem settle_fail_cur {s : Conf} {r : Running} {P : Nat} (inv : Inv s)
    (hr : s.run = some r) (hc : s.current = some P) (e : ErrVal)
    (he : e.isError = true) :
    slookup (diskStep s (IOOutcome.fail e)).settle P = some (POutcome.rejected e) := by
  rw [diskStep_fail_eq s r hr e]
  simp only [hc, if_pos he]
  refine Eq.trans (slookup_finallyStep _ _ _ _ ?_ ?_) ?_
  · exact inv.d_cr P r hc hr
  · exact fun f hf => inv.d_cs P f hc hf
  · exact slookup_settleP_none _ _ _ (inv.uns_cur P hc)

/-!
## Claim C4
-/

/-- What claim C4 asserts of a configuration with a write in flight:
every `write()` call arriving now receives the shared promise `retVal s`,
and further calls keep receiving that same promise; when the generation
the shared promise is attached to finishes, the promise resolves on
success and rejects with the generation's error on failure (`Error`
instances); and on promotion the queued shared promise becomes the
`current` promise of the generation that runs for it. -/
def C4Concl (s : Conf) : Prop :=
  (∀ c, (callStep s c).active = true ∧ retVal (callStep s c) = retVal s ∧
    (callStep s c).calls = s.calls ++ [CallRec.mk (retVal s) c s.calls.length]) ∧
  (∀ r P, s.run = some r → s.current = some P →
    (r.phase = Phase.renm →
      slookup (diskStep s IOOutcome.ok).settle P = some POutcome.resolved) ∧
    (∀ e, e.isError = true →
      slookup (diskStep s (IOOutcome.fail e)).settle P = some (POutcome.rejected e))) ∧
  (∀ r, s.run = some r → r.phase = Phase.renm →
    (diskStep s IOOutcome.ok).current = s.queued)

/-- C4: write() calls arriving while a write is active and before the next
queued write starts all receive the very same shared promise, and that
promise settles exactly once with the outcome of the single generation
that eventually runs for them (resolving together on success, rejecting
together with its `Error` on failure). -/
theorem c4_shared_promise (s : Conf) (hs : Reaches s) (hA : s.active = true) :
    C4Concl s := by
  have inv := inv_reaches hs
  refine ⟨?_, ?_, ?_⟩
  · intro c
    cases hq : s.queued with
    | some q =>
        refine ⟨?_, ?_, ?_⟩
        · simp [callStep, hA, hq]
        · simp [callStep, retVal, hA, hq]
        · simp [callStep, retVal, hA, hq]
    | none =>
        refine ⟨?_, ?_, ?_⟩
        · simp [callStep, hA, hq]
        · simp [callStep, retVal, hA, hq]
        · simp [callStep, retVal, hA, hq]
  · intro r P hr hc
    exact ⟨fun hph => settle_ok_cur inv hr hph hc,
      fun e he => settle_fail_cur inv hr hc e he⟩
  · intro r hr hph
    simp only [diskStep, hr, hph]
    cases hc : s.current with
    | none => rw [finallyStep_current]; exact inv.qw
    | some P => rw [finallyStep_current]; exact inv.qw

/-- C4 witness configuration: `write("A")` starts a generation,
`write("B")` queues the shared promise, and the second generation is
suspended in its rename with that promise as `current`. -/
theorem c4_shared_promise_witness :
    C4Concl (exec (mkConf "d/f") [Ev.call "A", Ev.call "B", Ev.disk IOOutcome.ok,
      Ev.disk IOOutcome.ok, Ev.disk IOOutcome.ok]) :=
  c4_shared_promise _ ⟨"d/f", _, rfl⟩ (by decide)

/-!
## Claim C2
-/

/-- What claim C2 (amended) asserts of a failing generation: the
coalesced waiters reject with exactly the generation's error, the failure
is recorded, and the `finally` cleanup runs — queue promoted, slots
cleared, a buffered payload immediately starting its own generation, and
the writer idle (never stuck `active = true`) when nothing was
buffered, in which case the internal sequence's own promise rejects with
the error. -/
def C2Concl (s : Conf) (r : Running) (e : ErrVal) : Prop :=
  (∀ P, s.current = some P →
    slookup (diskStep s (IOOutcome.fail e)).settle P = some (POutcome.rejected e)) ∧
  FailRec.mk r.callIdx e ∈ (diskStep s (IOOutcome.fail e)).failures ∧
  (∀ b j, s.buffer = some (b, j) →
    (diskStep s (IOOutcome.fail e)).active = true ∧
    (diskStep s (IOOutcome.fail e)).buffer = none ∧
    (diskStep s (IOOutcome.fail e)).run = some (Running.mk s.nextId b j Phase.wfile) ∧
    (diskStep s (IOOutcome.fail e)).current = s.queued) ∧
  (s.buffer = none →
    (diskStep s (IOOutcome.fail e)).active = false ∧
    (diskStep s (IOOutcome.fail e)).run = none ∧
    (diskStep s (IOOutcome.fail e)).stack = [] ∧
    slookup (diskStep s (IOOutcome.fail e)).settle r.prom = some (POutcome.rejected e))

/-- C2 (amended): when the write-to-temp or rename step of a generation
rejects with an `Error`, every caller coalesced into that generation
(holding the shared promise in `current`) is rejected with that very
error; the failure is recorded and re-thrown by the internal sequence
(whose own promise rejects with it when no later generation is chained);
and the cleanup runs exactly as on success: `active` is dropped, the
queued waiters are promoted to `current`, the queue slots are cleared,
and a buffered payload immediately gets its own generation — the writer
never stays stuck with `active = true`. -/
theorem c2_failure_cleanup (s : Conf) (r : Running) (e : ErrVal)
    (hs : Reaches s) (hr : s.run = some r) (he : e.isError = true) :
    C2Concl s r e := by
  have inv := inv_reaches hs
  refine ⟨fun P hc => settle_fail_cur inv hr hc e he, ?_, ?_, ?_⟩
  · -- the failure is recorded
    rw [diskStep_fail_eq s r hr e]
    have hsub : ∀ (t : Conf), FailRec.mk r.callIdx e ∈ t.failures →
        FailRec.mk r.callIdx e ∈ (finallyStep t r (some e)).failures := by
      intro t ht
      unfold finallyStep
      cases hb : t.buffer with
      | some bj => obtain ⟨b, j⟩ := bj; simpa [hb, startNext] using ht
      | none => simpa [hb, completeFlush] using ht
    cases hc : s.current with
    | none =>
        simp only [hc]
        exact hsub _ (List.mem_append_right _ (List.mem_singleton.mpr rfl))
    | some P =>
        simp only [hc, if_pos he]
        exact hsub _ (List.mem_append_right _ (List.mem_singleton.mpr rfl))
  · -- a buffered payload starts its own generation
    intro b j hb
    rw [diskStep_fail_eq s r hr e]
    have hfin : ∀ (t : Conf), t.buffer = s.buffer → t.waiting = s.waiting →
        t.calls = s.calls → t.nextId = s.nextId →
        (finallyStep t r (some e)).active = true ∧
        (finallyStep t r (some e)).buffer = none ∧
        (finallyStep t r (some e)).run = some (Running.mk s.nextId b j Phase.wfile) ∧
        (finallyStep t r (some e)).current = s.queued := by
      intro t htb htw htc htn
      unfold finallyStep
      rw [htb, hb]
      simp only [startNext]
      exact ⟨trivial, trivial, by rw [htn], by rw [htw]; exact inv.qw⟩
    cases hc : s.current with
    | none => simp only [hc]; exact hfin _ rfl rfl rfl rfl
    | some P => simp only [hc, if_pos he]; exact hfin _ rfl rfl rfl rfl
  · -- with nothing buffered the writer returns to idle and re-throws
    intro hb
    rw [diskStep_fail_eq s r hr e]
    have hfin : ∀ (t : Conf), t.buffer = s.buffer → t.stack = s.stack →
        slookup t.settle r.prom = none →
        (finallyStep t r (some e)).active = false ∧
        (finallyStep t r (some e)).run = none ∧
        (finallyStep t r (some e)).stack = [] ∧
        slookup (finallyStep t r (some e)).settle r.prom = some (POutcome.rejected e) := by
      intro t htb hts htr
      unfold finallyStep
      rw [htb, hb]
      simp only [completeFlush]
      refine ⟨trivial, trivial, trivial, ?_⟩
      rw [slookup_unwind_notmem _ _ _ _
        (by rw [hts]; exact fun f hf => inv.d_rs r f hr hf)]
      exact slookup_settleP_none _ _ _ htr
    cases hc : s.current with
    | none => simp only [hc]; exact hfin _ rfl rfl (inv.uns_run r hr)
    | some P =>
        simp only [hc, if_pos he]
        refine hfin _ rfl rfl ?_
        rw [slookup_settleP_ne _ _ _ _ (fun hcon => (inv.d_cr P r hc hr) hcon.symm)]
        exact inv.uns_run r hr

/-- The C2 counterexample run: the generation carrying call 0 fails with
error 1, and the chained generation carrying call 1 fails with error 2. -/
def c2Trace : Conf :=
  exec (mkConf "d/f") [Ev.call "A", Ev.call "B",
    Ev.disk (IOOutcome.fail (ErrVal.mk 1 true)),
    Ev.disk (IOOutcome.fail (ErrVal.mk 2 true))]

/-- C2 is false as stated: the generation associated with caller `"A"`
(call index 0) fails at the temp-write step with error 1, but when the
chained generation also fails (error 2), the internal sequence's own
promise — and with it caller `"A"` — rejects with error 2 instead: the
`finally` block's failing `await this.write(next)` replaces the
re-thrown error. -/
theorem c2_counterexample :
    c2Trace.failures = [FailRec.mk 0 (ErrVal.mk 1 true), FailRec.mk 1 (ErrVal.mk 2 true)] ∧
    CallRec.mk 0 "A" 0 ∈ c2Trace.calls ∧
    slookup c2Trace.settle 0 = some (POutcome.rejected (ErrVal.mk 2 true)) ∧
    ErrVal.mk 2 true ≠ ErrVal.mk 1 true := by
  decide

/-- C2 witness configuration: a second generation (payload `"B"`) is in
flight with coalesced waiters in `current` and `"C"` buffered; its
storage call fails with an `Error`. -/
theorem c2_failure_cleanup_witness :
    C2Concl (exec (mkConf "d/f") [Ev.call "A", Ev.call "B", Ev.disk IOOutcome.ok,
        Ev.disk IOOutcome.ok, Ev.call "C"])
      (Running.mk 2 "B" 1 Phase.wfile) (ErrVal.mk 3 true) :=
  c2_failure_cleanup _ _ _ ⟨"d/f", _, rfl⟩ (by decide) (by decide)

/-!
## Claim C1
-/

/-- The C1 counterexample run: `write("A")` commits in its own
generation, `write("B")` is buffered, and the chained generation for
`"B"` fails. -/
def c1Trace : Conf :=
  exec (mkConf "d/f") [Ev.call "A", Ev.call "B", Ev.disk IOOutcome.ok,
    Ev.disk IOOutcome.ok, Ev.disk (IOOutcome.fail (ErrVal.mk 0 true))]

/-- C1 is false as stated: caller `"A"` (promise 0, call index 0) had its
content committed by its own successful generation — the only failing
generation is the later one carrying call 1's payload, which did not
subsume `"A"`'s already-satisfied call — yet `write("A")`'s promise is
rejected with that later generation's error. -/
theorem c1_counterexample :
    slookup c1Trace.settle 0 = some (POutcome.rejected (ErrVal.mk 0 true)) ∧
    CallRec.mk 0 "A" 0 ∈ c1Trace.calls ∧
    CommitRec.mk "A" 0 ∈ c1Trace.committed ∧
    c1Trace.failures = [FailRec.mk 1 (ErrVal.mk 0 true)] := by
  decide

/-- C1 (amended): a caller's promise resolves only once some call's
content at least as recent as its own has been committed, and it rejects
only with an error that some generation carrying a payload at least as
recent as the caller's actually failed with — which may be the caller's
own generation or a later generation chained through its `finally`. -/
theorem c1_settlement (s : Conf) (hs : Reaches s) :
    ∀ cr ∈ s.calls,
      (slookup s.settle cr.prom = some POutcome.resolved →
        ∃ d ∈ s.committed, cr.idx ≤ d.callIdx ∧
          ∃ p, CallRec.mk p d.content d.callIdx ∈ s.calls) ∧
      (∀ e, slookup s.settle cr.prom = some (POutcome.rejected e) →
        ∃ j, FailRec.mk j e ∈ s.failures ∧ cr.idx ≤ j) := by
  have inv := inv_reaches hs
  intro cr hcr
  have h := inv.calls_ok cr hcr
  constructor
  · intro hres
    rw [hres] at h
    obtain ⟨d, hd, hle⟩ := h
    exact ⟨d, hd, hle, inv.cmt_src d hd⟩
  · intro e hrej
    rw [hrej] at h
    exact h

/-- C1 witness: the settlement discipline applied to a completed
single-write run. -/
theorem c1_settlement_witness :
    (slookup (exec (mkConf "d/f") [Ev.call "A", Ev.disk IOOutcome.ok,
        Ev.disk IOOutcome.ok]).settle (CallRec.mk 0 "A" 0).prom =
          some POutcome.resolved →
      ∃ d ∈ (exec (mkConf "d/f") [Ev.call "A", Ev.disk IOOutcome.ok,
        Ev.disk IOOutcome.ok]).committed, (CallRec.mk 0 "A" 0).idx ≤ d.callIdx ∧
          ∃ p, CallRec.mk p d.content d.callIdx ∈ (exec (mkConf "d/f")
            [Ev.call "A", Ev.disk IOOutcome.ok, Ev.disk IOOutcome.ok]).calls) ∧
    (∀ e, slookup (exec (mkConf "d/f") [Ev.call "A", Ev.disk IOOutcome.ok,
        Ev.disk IOOutcome.ok]).settle (CallRec.mk 0 "A" 0).prom =
          some (POutcome.rejected e) →
      ∃ j, FailRec.mk j e ∈ (exec (mkConf "d/f") [Ev.call "A",
        Ev.disk IOOutcome.ok, Ev.disk IOOutcome.ok]).failures ∧
          (CallRec.mk 0 "A" 0).idx ≤ j) :=
  c1_settlement _ ⟨"d/f", _, rfl⟩ (CallRec.mk 0 "A" 0) (by decide)

/-!
## Claim C3
-/

/-- The C3 scenario with every storage call succeeding. -/
def c3OkTrace : Conf :=
  exec (mkConf "d/f") [Ev.call "A", Ev.call "B", Ev.call "C",
    Ev.disk IOOutcome.ok, Ev.disk IOOutcome.ok,
    Ev.disk IOOutcome.ok, Ev.disk IOOutcome.ok]

/-- The C3 scenario where `"A"`'s generation succeeds but the chained
generation (payload `"C"`) fails. -/
def c3FailTrace : Conf :=
  exec (mkConf "d/f") [Ev.call "A", Ev.call "B", Ev.call "C",
    Ev.disk IOOutcome.ok, Ev.disk IOOutcome.ok,
    Ev.disk (IOOutcome.fail (ErrVal.mk 4 true))]

/-- C3 is false in its independence clause: in the very scenario the
claim describes, `write("A")`'s settlement does not depend only on its
own generation's outcome — `"A"`'s generation committed, the only
failure is the chained generation's, yet `write("A")`'s promise is
rejected with that failure. -/
theorem c3_counterexample :
    CommitRec.mk "A" 0 ∈ c3FailTrace.committed ∧
    c3FailTrace.failures = [FailRec.mk 2 (ErrVal.mk 4 true)] ∧
    slookup c3FailTrace.settle 0 = some (POutcome.rejected (ErrVal.mk 4 true)) := by
  decide

/-- C3 (amended): in the scenario `write("A")` then, before it settles,
`write("B")` and `write("C")`: `write("A")` receives its own promise
(0), `write("B")` and `write("C")` share one promise (1) and hence one
resolution, exactly two generations run, and the final file content is
`"C"`; when every storage call succeeds both promises resolve — but
`write("A")`'s settlement depends on the chained generation too, not
only on its own. -/
theorem c3_scenario :
    c3OkTrace.calls = [CallRec.mk 0 "A" 0, CallRec.mk 1 "B" 1, CallRec.mk 1 "C" 2] ∧
    slookup c3OkTrace.settle 0 = some POutcome.resolved ∧
    slookup c3OkTrace.settle 1 = some POutcome.resolved ∧
    c3OkTrace.targetFile = some "C" ∧
    c3OkTrace.started.length = 2 ∧
    c3OkTrace.committed = [CommitRec.mk "A" 0, CommitRec.mk "C" 2] := by
  decide

/-!
## Claim C5
-/

/-- C5: each generation's payload is the most recent `write()` call at
the moment the generation started (its call index is exactly the number
of calls then seen, minus one), every commit's content is the payload of
the call it is indexed by, and the committed call indices are strictly
increasing — no generation commits content older than an earlier
commit. -/
theorem c5_monotonic_commit (s : Conf) (hs : Reaches s) :
    ((s.committed.map CommitRec.callIdx).Pairwise (· < ·)) ∧
    (∀ g ∈ s.started, g.callIdx + 1 = g.callsAtStart ∧
      ∃ p, CallRec.mk p g.content g.callIdx ∈ s.calls) ∧
    (∀ d ∈ s.committed, ∃ p, CallRec.mk p d.content d.callIdx ∈ s.calls) := by
  have inv := inv_reaches hs
  exact ⟨inv.cmt_inc, inv.started_ok, inv.cmt_src⟩

/-- C5 witness: the monotone-commit discipline on a run with coalescing
and two commits. -/
theorem c5_monotonic_commit_witness :
    ((c3OkTrace.committed.map CommitRec.callIdx).Pairwise (· < ·)) ∧
    (∀ g ∈ c3OkTrace.started, g.callIdx + 1 = g.callsAtStart ∧
      ∃ p, CallRec.mk p g.content g.callIdx ∈ c3OkTrace.calls) ∧
    (∀ d ∈ c3OkTrace.committed, ∃ p, CallRec.mk p d.content d.callIdx ∈ c3OkTrace.calls) :=
  c5_monotonic_commit _ ⟨"d/f", _, rfl⟩

/-!
## Claim C6
-/

/-- C6: the buffer is a single slot — a `write()` arriving while a write
is active stores exactly its payload there, overwriting whatever was
buffered (never appending); the buffered payload is always the most
recent call's; and the buffer is empty whenever no shared queued promise
awaits a next generation. -/
theorem c6_single_buffer (s : Conf) (hs : Reaches s) :
    (s.buffer ≠ none → s.queued ≠ none) ∧
    (∀ b j, s.buffer = some (b, j) → j + 1 = s.calls.length) ∧
    (s.active = true → ∀ c, (callStep s c).buffer = some (c, s.calls.length)) := by
  have inv := inv_reaches hs
  refine ⟨fun hb hq => hb (inv.buf_q.mpr hq), fun b j hb => (inv.buf_idx b j hb).1, ?_⟩
  intro hA c
  cases hq : s.queued <;> simp [callStep, hA, hq]

/-- C6 witness: a configuration with an active write and a buffered
payload. -/
theorem c6_single_buffer_witness :
    ((exec (mkConf "d/f") [Ev.call "A", Ev.call "B"]).buffer ≠ none →
      (exec (mkConf "d/f") [Ev.call "A", Ev.call "B"]).queued ≠ none) ∧
    (∀ b j, (exec (mkConf "d/f") [Ev.call "A", Ev.call "B"]).buffer = some (b, j) →
      j + 1 = (exec (mkConf "d/f") [Ev.call "A", Ev.call "B"]).calls.length) ∧
    ((exec (mkConf "d/f") [Ev.call "A", Ev.call "B"]).active = true →
      ∀ c, (callStep (exec (mkConf "d/f") [Ev.call "A", Ev.call "B"]) c).buffer =
        some (c, (exec (mkConf "d/f") [Ev.call "A", Ev.call "B"]).calls.length)) :=
  c6_single_buffer _ ⟨"d/f", _, rfl⟩

/-!
## Claim C7
-/

/-- The configuration after `await write("A")` completes on a fresh
writer. -/
def c7First : Conf :=
  exec (mkConf "d/f") [Ev.call "A", Ev.disk IOOutcome.ok, Ev.disk IOOutcome.ok]

/-- The configuration after the subsequent `await write("B")`. -/
def c7Second : Conf :=
  exec c7First [Ev.call "B", Ev.disk IOOutcome.ok, Ev.disk IOOutcome.ok]

/-- The configuration after `await write("A"); await write("A")` —
identical payloads. -/
def c7Twice : Conf :=
  exec (mkConf "d/f") [Ev.call "A", Ev.disk IOOutcome.ok, Ev.disk IOOutcome.ok,
    Ev.call "A", Ev.disk IOOutcome.ok, Ev.disk IOOutcome.ok]

/-- C7: sequential `await write("A"); await write("B")` leaves `"B"` on
the target, runs exactly two write-to-temp-and-rename generations, each
caller's promise resolves, and `busy` is false after each await; writing
the same content twice likewise runs two full generations (no
content-based deduplication). -/
theorem c7_sequential :
    c7First.active = false ∧ c7First.targetFile = some "A" ∧
    slookup c7First.settle 0 = some POutcome.resolved ∧
    c7Second.active = false ∧ c7Second.targetFile = some "B" ∧
    slookup c7Second.settle 1 = some POutcome.resolved ∧
    c7Second.started = [GenRec.mk "A" 0 1, GenRec.mk "B" 1 2] ∧
    c7Second.committed = [CommitRec.mk "A" 0, CommitRec.mk "B" 1] ∧
    c7Twice.started.length = 2 ∧
    c7Twice.committed = [CommitRec.mk "A" 0, CommitRec.mk "A" 1] := by
  decide

/-!
## Claim C8
-/

instance normalSegDec : DecidablePred normalSeg := fun seg =>
  decidable_of_iff (seg ≠ [] ∧ seg ≠ ['.'] ∧ seg ≠ ['.', '.']) Iff.rfl

/-- C8 is false as stated for denormalized directories: the target
`"a//b/f"` has directory `"a//b"` (its `dirname`) and filename `"f"`
(its `basename`), but because `path.join` normalizes its result, the
temp path is `"a/b/.f.tmp"`, not `D/.F.tmp = "a//b/.f.tmp"`; likewise a
`".."` segment in the directory is resolved away. -/
theorem c8_counterexample :
    dirname ("a//b" ++ "/" ++ "f") = "a//b" ∧
    basename ("a//b" ++ "/" ++ "f") = "f" ∧
    temp ("a//b" ++ "/" ++ "f") = "a/b/.f.tmp" ∧
    temp ("a//b" ++ "/" ++ "f") ≠ "a//b" ++ "/" ++ ("." ++ "f" ++ ".tmp") ∧
    dirname ("a/b/.." ++ "/" ++ "f") = "a/b/.." ∧
    temp ("a/b/.." ++ "/" ++ "f") = "a/.f.tmp" ∧
    temp ("a/b/.." ++ "/" ++ "f") ≠ "a/b/.." ++ "/" ++ ("." ++ "f" ++ ".tmp") := by
  decide

/-- C8 (amended): the writer's temp path is computed once at
construction as a pure function `temp` of the target and never changes
afterwards; for a target with directory `D` and filename `F` where `F`
is non-empty and slash-free and `D` is a *normalized* directory — every
segment plain (non-empty, not `.` or `..`), optionally after a single
root slash — the temp path is exactly
`D ++ "/" ++ ("." ++ F ++ ".tmp")`, the leading-dot, `.tmp`-suffixed
sibling in the target's directory.  For denormalized directories,
`path.join` first collapses doubled slashes and resolves `.`/`..`
segments. -/
theorem c8_temp_path (p D F : String) (evs : List Ev) (hF : F ≠ "")
    (hFs : ∀ ch ∈ F.data, ch ≠ '/')
    (hD : (∀ seg ∈ splitSlash D.data, normalSeg seg) ∨
      (∃ R, D.data = '/' :: R ∧ ∀ seg ∈ splitSlash R, normalSeg seg)) :
    (exec (mkConf p) evs).tmpName = temp p ∧
    (exec (mkConf p) evs).target = p ∧
    temp (D ++ "/" ++ F) = D ++ "/" ++ ("." ++ F ++ ".tmp") :=
  ⟨(paths_exec p evs).1, (paths_exec p evs).2, temp_formula D F hF hFs hD⟩

/-- C8 witness: the formula evaluated on concrete relative and absolute
targets and a concrete run. -/
theorem c8_temp_path_witness :
    ((exec (mkConf "dir/a.txt") [Ev.call "x", Ev.disk IOOutcome.ok]).tmpName =
      temp "dir/a.txt" ∧
    (exec (mkConf "dir/a.txt") [Ev.call "x", Ev.disk IOOutcome.ok]).target =
      "dir/a.txt" ∧
    temp ("dir" ++ "/" ++ "a.txt") = "dir" ++ "/" ++ ("." ++ "a.txt" ++ ".tmp")) ∧
    temp ("/var/data" ++ "/" ++ "a.txt") =
      "/var/data" ++ "/" ++ ("." ++ "a.txt" ++ ".tmp") :=
  ⟨c8_temp_path "dir/a.txt" "dir" "a.txt" [Ev.call "x", Ev.disk IOOutcome.ok]
      (by decide) (by decide) (Or.inl (by decide)),
    (c8_temp_path "dir/a.txt" "/var/data" "a.txt" []
      (by decide) (by decide)
      (Or.inr ⟨"var/data".data, by decide, by decide⟩)).2.2⟩

/-!
## Claim C9
-/

/-- The C9 divergence run: an empty string buffered behind an active
write. -/
def c9Evs : List Ev :=
  [Ev.call "A", Ev.call "", Ev.disk IOOutcome.ok, Ev.disk IOOutcome.ok,
    Ev.disk IOOutcome.ok, Ev.disk IOOutcome.ok]

/-- C9 is false for the empty string: after `write("A")` and a coalesced
`write("")`, the compact variant (`#buffer !== null`) runs a second
generation, commits `""` and resolves the shared promise, while the
documented variant's truthiness test (`if (next)`) skips the buffered
empty payload, leaves it in the buffer, never runs the second
generation, and leaves the shared promise unsettled. -/
theorem c9_counterexample :
    execD (mkConf "d/f") c9Evs ≠ exec (mkConf "d/f") c9Evs ∧
    (execD (mkConf "d/f") c9Evs).targetFile = some "A" ∧
    (exec (mkConf "d/f") c9Evs).targetFile = some "" ∧
    slookup (execD (mkConf "d/f") c9Evs).settle 1 = none ∧
    slookup (exec (mkConf "d/f") c9Evs).settle 1 = some POutcome.resolved ∧
    (execD (mkConf "d/f") c9Evs).buffer = some ("", 1) ∧
    (exec (mkConf "d/f") c9Evs).buffer = none ∧
    (execD (mkConf "d/f") c9Evs).started.length = 1 ∧
    (exec (mkConf "d/f") c9Evs).started.length = 2 := by
  decide

/-- C9 (amended): the two `Writer` implementations in `index.ts` are
observationally equivalent — same storage operations, same file
contents, same promise outcomes — for every sequence of `write()` calls
whose payloads are non-empty; they diverge when an empty string is
buffered behind an active write. -/
theorem c9_equivalence (p : String) (evs : List Ev)
    (h : ∀ c, Ev.call c ∈ evs → c ≠ "") :
    execD (mkConf p) evs = exec (mkConf p) evs :=
  execD_eq_exec evs (mkConf p) (fun _ hj => Option.noConfusion hj) h

/-- C9 witness: both variants agree on a non-empty coalescing run. -/
theorem c9_equivalence_witness :
    execD (mkConf "d/f") [Ev.call "A", Ev.call "B", Ev.disk IOOutcome.ok,
        Ev.disk IOOutcome.ok, Ev.disk IOOutcome.ok, Ev.disk IOOutcome.ok] =
      exec (mkConf "d/f") [Ev.call "A", Ev.call "B", Ev.disk IOOutcome.ok,
        Ev.disk IOOutcome.ok, Ev.disk IOOutcome.ok, Ev.disk IOOutcome.ok] :=
  c9_equivalence "d/f" _ (by
    intro c hc
    simp only [List.mem_cons] at hc
    rcases hc with h | h | h | h | h | h | h
    · cases h; decide
    · cases h; decide
    · cases h
    · cases h
    · cases h
    · cases h
    · cases List.not_mem_nil _ h)

/-!
## Claim C10
-/

/-- A non-`Error` thrown value. -/
def c10Err : ErrVal := ErrVal.mk 7 false

/-- The run leading to a second generation (payload `"B"`) in flight with
the coalesced waiters' shared promise (1) as `current`. -/
def c10Pre : Conf :=
  exec (mkConf "d/f") [Ev.call "A", Ev.call "B", Ev.disk IOOutcome.ok,
    Ev.disk IOOutcome.ok]

/-- The configuration after that generation's storage call rejects with
the non-`Error` value. -/
def c10Post : Conf := diskStep c10Pre (IOOutcome.fail c10Err)

/-- C10: when the storage layer throws a value that is not an `Error`
instance, the internal write sequence still rethrows it — its own
promise (2) and its direct caller's promise (0) reject with the value —
and the cleanup still runs (`active` false, no generation left), but the
reject callback of the coalesced waiters is never invoked: their shared
promise (1) is unsettled and remains unsettled under every possible
continuation of the run. -/
theorem c10_non_error_strands_waiters :
    c10Pre.current = some 1 ∧
    CallRec.mk 1 "B" 1 ∈ c10Pre.calls ∧
    slookup c10Post.settle 1 = none ∧
    slookup c10Post.settle 2 = some (POutcome.rejected c10Err) ∧
    slookup c10Post.settle 0 = some (POutcome.rejected c10Err) ∧
    c10Post.active = false ∧
    c10Post.run = none ∧
    ∀ evs : List Ev, slookup (exec c10Post evs).settle 1 = none := by
  refine ⟨by decide, by decide, by decide, by decide, by decide, by decide, by decide, ?_⟩
  intro evs
  apply detached_exec
  refine ⟨by decide, by decide, by decide, by decide, by decide, ?_, ?_⟩
  · intro r hr
    have hnone : c10Post.run = none := by decide
    rw [hnone] at hr
    cases hr
  · intro f hf
    have hnil : c10Post.stack = [] := by decide
    rw [hnil] at hf
    cases hf

end Writerx
